import Mathlib

/-
Verification of the logical reasoning core of the Wumpus-World agent
(repository LucaSforza/Wumpus-World).

The development shallowly embeds the Rust sources:
  * src/encoder.rs : the generic CNF encoder `EncoderSAT<T>` with its
    variable interning, clause store, single-slot snapshot/rewind and
    DIMACS emission;
  * src/kb.rs      : the knowledge base built on the encoder (`ask`,
    `tell`, `consistency`, `create_ground_truth_from_perception`,
    `init_kb`);
  * src/world.rs   : `Position`, `Direction`, `Perceptions`,
    `move_clone`, `possible_move`.

Conventions of the embedding:
  * Rust `usize` values become `Nat`.  The only place where unsigned
    underflow matters is `Position::move_clone` (`y - 1` / `x - 1`);
    there the underflow condition is modelled explicitly by
    `Position.move_underflows` (in debug builds Rust aborts on
    underflow).  All other arithmetic stays within `Nat`.
  * `HashMap<T, usize>` becomes an association list `List (T × Nat)`
    queried with `findId`; the encoder only ever inserts a key that is
    absent, so the list has distinct keys and behaves exactly like the
    hash map.
  * Rust assertions/`expect` calls (`snapshot` with an existing
    snapshot, `rewind` without one) abort the process; the embedding
    returns `Option` and models the abort as `none`.
  * The external SAT solver (picosat, spawned as a subprocess on the
    DIMACS text of the current encoder state) is modelled as an
    abstract oracle `Oracle : Nat → List (List (Literal Nat)) → Bool`
    receiving exactly the information content of the DIMACS output:
    the variable counter and the clause list.
-/

namespace Wumpus

/-- `Literal<T>` from src/encoder.rs: a variable tagged with a polarity. -/
inductive Literal (T : Type) where
  | Pos (t : T)
  | Neg (t : T)
deriving DecidableEq

/-- `Literal::map` from src/encoder.rs: apply `f` to the payload, keep polarity. -/
def Literal.map {T U : Type} (f : T → U) : Literal T → Literal U
  | .Pos t => .Pos (f t)
  | .Neg t => .Neg (f t)

/-- `Literal::inner` from src/encoder.rs: drop the polarity. -/
def Literal.inner {T : Type} : Literal T → T
  | .Pos t => t
  | .Neg t => t

/-- `Literal::not` from src/encoder.rs: flip the polarity. -/
def Literal.not {T : Type} : Literal T → Literal T
  | .Pos t => .Neg t
  | .Neg t => .Pos t

/-- `struct Snapshot<T>` from src/encoder.rs. -/
structure Snapshot (T : Type) where
  last_var_counter : Nat
  last_len_clauses : Nat
  new_vars : List T
deriving DecidableEq

/-- `struct EncoderSAT<T>` from src/encoder.rs.  `map` is the
name-to-id table (`HashMap<T, usize>` modelled as an association
list), `clauses` the stored integer clauses, `counter` the highest
allocated id, `snapshot` the optional single-slot save point. -/
structure EncoderSAT (T : Type) where
  map : List (T × Nat)
  clauses : List (List (Literal Nat))
  counter : Nat
  snapshot : Option (Snapshot T)
deriving DecidableEq

variable {T : Type}

/-- Lookup in the association list modelling the `HashMap`. -/
def findId [DecidableEq T] : List (T × Nat) → T → Option Nat
  | [], _ => none
  | p :: m, k => if p.1 = k then some p.2 else findId m k

/-- Removal from the association list (`HashMap::remove` in `rewind`). -/
def eraseKey [DecidableEq T] : List (T × Nat) → T → List (T × Nat)
  | [], _ => []
  | p :: m, k => if p.1 = k then m else p :: eraseKey m k

/-- `EncoderSAT::new` / `Default` from src/encoder.rs. -/
def EncoderSAT.new : EncoderSAT T := ⟨[], [], 0, none⟩

/-- `create_raw_variable` from src/encoder.rs: bump the counter and
return the fresh id as a positive literal (no name table entry). -/
def EncoderSAT.create_raw_variable (e : EncoderSAT T) :
    Literal Nat × EncoderSAT T :=
  (Literal.Pos (e.counter + 1), { e with counter := e.counter + 1 })

/-- `add_raw_clause` from src/encoder.rs: push an integer clause. -/
def EncoderSAT.add_raw_clause (e : EncoderSAT T)
    (raw_clause : List (Literal Nat)) : EncoderSAT T :=
  { e with clauses := e.clauses ++ [raw_clause] }

/-- `register_literal` from src/encoder.rs: intern the variable,
allocating `counter + 1` when absent (and recording the name in the
snapshot's `new_vars` when a snapshot exists), and translate the
literal to its integer id preserving polarity. -/
def EncoderSAT.register_literal [DecidableEq T] (e : EncoderSAT T)
    (l : Literal T) : Literal Nat × EncoderSAT T :=
  match findId e.map l.inner with
  | some id => (l.map (fun _ => id), e)
  | none =>
      (l.map (fun _ => e.counter + 1),
       { e with
         map := e.map ++ [(l.inner, e.counter + 1)],
         counter := e.counter + 1,
         snapshot := e.snapshot.map
           (fun s => { s with new_vars := s.new_vars ++ [l.inner] }) })

/-- `register_clause` from src/encoder.rs: intern the literals of a
clause left to right. -/
def EncoderSAT.register_clause [DecidableEq T] (e : EncoderSAT T) :
    List (Literal T) → List (Literal Nat) × EncoderSAT T
  | [] => ([], e)
  | l :: ls =>
      let r := e.register_literal l
      let rs := r.2.register_clause ls
      (r.1 :: rs.1, rs.2)

/-- `add` from src/encoder.rs: intern a clause and push it.  The
`ClauseBuilder` in the source (`clause()` / `ClauseBuilder::add` /
`end`) registers the literals one by one in order and then pushes the
collected clause, which performs exactly the same state mutations. -/
def EncoderSAT.add [DecidableEq T] (e : EncoderSAT T)
    (clause : List (Literal T)) : EncoderSAT T :=
  let r := e.register_clause clause
  { r.2 with clauses := r.2.clauses ++ [r.1] }

/-- The state produced by a successful `snapshot` call: record the
counter and the clause count, start with no new names. -/
def EncoderSAT.snapWith (e : EncoderSAT T) : EncoderSAT T :=
  { e with snapshot := some ⟨e.counter, e.clauses.length, []⟩ }

/-- `snapshot` from src/encoder.rs.  The source asserts that no
snapshot exists; the assertion abort is modelled as `none`. -/
def EncoderSAT.snapshotOp (e : EncoderSAT T) : Option (EncoderSAT T) :=
  match e.snapshot with
  | some _ => none
  | none => some e.snapWith

/-- `rewind` from src/encoder.rs: restore the counter, pop clauses
back to the snapshot length, remove every name recorded in `new_vars`
from the table, clear the snapshot.  The `expect` abort when no
snapshot exists is modelled as `none`. -/
def EncoderSAT.rewindOp [DecidableEq T] (e : EncoderSAT T) :
    Option (EncoderSAT T) :=
  match e.snapshot with
  | none => none
  | some s =>
      some { e with
        counter := s.last_var_counter,
        clauses := e.clauses.take s.last_len_clauses,
        map := s.new_vars.foldl (fun m k => eraseKey m k) e.map,
        snapshot := none }

/-- Per-literal text of `encode` from src/encoder.rs
(`format!("{l} ")` / `format!("-{l} ")`). -/
def litText : Literal Nat → String
  | .Pos l => Nat.repr l ++ " "
  | .Neg l => "-" ++ Nat.repr l ++ " "

/-- Per-clause text of `encode`: concatenate the literal texts then
push the terminating `'0'`. -/
def clauseText (c : List (Literal Nat)) : String :=
  (c.map litText).foldl (fun a b => a ++ b) "" ++ "0"

/-- Update one slot of the `variables` vector in `encode`
(`variables[v - 1] = Some(k)`).  Out-of-range writes are dropped; the
source would abort there, and under the encoder invariant every id is
within range. -/
def setAt {U : Type} : List (Option U) → Nat → U → List (Option U)
  | [], _, _ => []
  | _ :: rest, 0, x => some x :: rest
  | o :: rest, n + 1, x => o :: setAt rest n x

/-- The id-indexed name table returned by `encode`
(`vec![None; counter]`, fill at `v - 1`, then `filter_map`). -/
def EncoderSAT.variablesList (e : EncoderSAT T) : List T :=
  (e.map.foldl (fun arr p => setAt arr (p.2 - 1) p.1)
      (List.replicate e.counter (none : Option T))).filterMap id

/-- `encode` from src/encoder.rs: the DIMACS text
(`p cnf <counter> <#clauses>` header, one line per clause) and the
id-indexed name table. -/
def EncoderSAT.encode (e : EncoderSAT T) : String × List T :=
  ("p cnf " ++ Nat.repr e.counter ++ " " ++ Nat.repr e.clauses.length ++ "\n"
     ++ (e.clauses.map (fun c => clauseText c ++ "\n")).foldl
          (fun a b => a ++ b) "",
   e.variablesList)

/-- The external SAT solver of `picosat_sat` in src/encoder.rs,
abstracted: it receives the information content of the DIMACS text of
the current encoder state (the variable counter and the clause list)
and answers satisfiable / unsatisfiable. -/
abbrev Oracle := Nat → List (List (Literal Nat)) → Bool

/-- `struct Position` from src/world.rs (`x`, `y` are `usize`). -/
structure Position where
  x : Nat
  y : Nat
deriving DecidableEq

/-- `enum Direction` from src/world.rs. -/
inductive Direction where
  | North
  | Sud
  | East
  | Ovest
deriving DecidableEq

/-- `Position::move_clone` from src/world.rs.  The `usize`
subtractions `y - 1` / `x - 1` are modelled with truncated `Nat`
subtraction; the underflow the source would abort on is captured
separately by `Position.move_underflows`. -/
def Position.move_clone (p : Position) (dir : Direction) : Position :=
  match dir with
  | .North => ⟨p.x, p.y - 1⟩
  | .Sud => ⟨p.x, p.y + 1⟩
  | .East => ⟨p.x + 1, p.y⟩
  | .Ovest => ⟨p.x - 1, p.y⟩

/-- Whether `Position::move_clone` performs an unsigned-integer
underflow: it computes `y - 1` for `North` and `x - 1` for `Ovest`. -/
def Position.move_underflows (p : Position) (dir : Direction) : Bool :=
  match dir with
  | .North => decide (p.y = 0)
  | .Sud => false
  | .East => false
  | .Ovest => decide (p.x = 0)

/-- `Position::possible_move` from src/world.rs (`size - 1` is a
`usize` subtraction, truncated at zero exactly like `Nat` sub). -/
def Position.possible_move (p : Position) (dir : Direction) (size : Nat) : Bool :=
  match dir with
  | .North => decide (p.y > 0)
  | .Sud => decide (p.y < size - 1)
  | .East => decide (p.x < size - 1)
  | .Ovest => decide (p.x > 0)

/-- `struct Perceptions` from src/world.rs. -/
structure Perceptions where
  glitter : Bool
  stench : Bool
  breeze : Bool
  howl : Bool
  bump : Bool
  position : Position
  board_size : Nat
deriving DecidableEq

/-- `enum Var` from src/kb.rs: the domain variables of the
Wumpus-World theory. -/
inductive Var where
  | Safe (pos : Position)
  | Wumpus (pos : Position)
  | Pit (pos : Position)
  | Gold (pos : Position)
  | Stench (pos : Position)
  | Breeze (pos : Position)
  | Howl
  | Bump (pos : Position) (dir : Direction)
deriving DecidableEq

/-- `type Formula = Vec<Vec<Literal<Var>>>` from src/kb.rs. -/
abbrev Formula := List (List (Literal Var))

/-- `tell` from src/kb.rs: `add` every clause of the formula in order. -/
def tell [DecidableEq T] (e : EncoderSAT T)
    (formula : List (List (Literal T))) : EncoderSAT T :=
  formula.foldl (fun acc c => acc.add c) e

/-- `consistency` from src/kb.rs: run the solver on the current state
(the debug dump on failure has no effect on the state). -/
def consistency (oracle : Oracle) (e : EncoderSAT T) : Bool :=
  oracle e.counter e.clauses

/-- The body of the literal loop in the multi-clause branch of `ask`
(src/kb.rs lines 67-71): for each literal of the clause, register its
negation and add the raw linking clause `[¬literal, ¬tseytin]`. -/
def linkNeg [DecidableEq T] (t : Literal Nat) :
    EncoderSAT T → List (Literal T) → EncoderSAT T
  | e, [] => e
  | e, l :: ls =>
      let r := e.register_literal l.not
      linkNeg t (r.2.add_raw_clause [r.1, t.not]) ls

/-- One iteration of the clause loop in the multi-clause branch of
`ask` (src/kb.rs lines 55-75): allocate the Tseytin auxiliary, emit
the per-literal linking clauses, re-register the original clause and
emit it with the auxiliary appended.  Returns the auxiliary literal
(collected into `tseytin_clause` by the caller) and the new state. -/
def askClauseStep [DecidableEq T] (e : EncoderSAT T)
    (clause : List (Literal T)) : Literal Nat × EncoderSAT T :=
  let r := e.create_raw_variable
  let e1 := linkNeg r.1 r.2 clause
  let r2 := e1.register_clause clause
  (r.1, r2.2.add_raw_clause (r2.1 ++ [r.1]))

/-- The clause loop of the multi-clause branch of `ask`: process the
clauses left to right, collecting the Tseytin auxiliaries in order. -/
def askLoop [DecidableEq T] (e : EncoderSAT T) :
    List (List (Literal T)) → List (Literal Nat) × EncoderSAT T
  | [] => ([], e)
  | c :: cs =>
      let r := askClauseStep e c
      let rs := askLoop r.2 cs
      (r.1 :: rs.1, rs.2)

/-- The knowledge-base augmentation built by `ask` before the solver
call: the Tseytin encoding of the negated query for a multi-clause
formula, the unit clauses `[¬ℓ]` for a single-clause formula
(src/kb.rs lines 53-86).  The empty formula adds nothing (that branch
returns before the solver call). -/
def askAug [DecidableEq T] (e : EncoderSAT T) :
    List (List (Literal T)) → EncoderSAT T
  | [] => e
  | [c] => c.foldl (fun acc l => acc.add [l.not]) e
  | c1 :: c2 :: cs =>
      let r := askLoop e (c1 :: c2 :: cs)
      r.2.add_raw_clause r.1

/-- `ask` from src/kb.rs: take a snapshot, augment the KB with the
negation of the query (empty formula: rewind and answer `false`
without consulting the solver), ask the solver, rewind, and answer the
negation of the solver's verdict.  The assertion aborts of
`snapshot`/`rewind` are modelled as `none`. -/
def ask [DecidableEq T] (oracle : Oracle) (e : EncoderSAT T)
    (formula : List (List (Literal T))) : Option (Bool × EncoderSAT T) :=
  match e.snapshotOp with
  | none => none
  | some e1 =>
      match formula with
      | [] => e1.rewindOp.map (fun e2 => (false, e2))
      | _ :: _ =>
          let e2 := askAug e1 formula
          let result := !(oracle e2.counter e2.clauses)
          e2.rewindOp.map (fun e3 => (result, e3))

/-- `create_ground_truth_from_perception` from src/kb.rs, with the
mutable-variable style of the source made explicit. -/
def create_ground_truth_from_perception (p : Perceptions) : Formula :=
  let var1 : Literal Var := Literal.Pos (Var.Breeze p.position)
  let var1 := if !p.breeze then var1.not else var1
  let f : Formula := [[var1]]
  let var2 : Literal Var := Literal.Pos (Var.Gold p.position)
  let f := if p.glitter then f ++ [[var2]] else f
  let var3 : Literal Var := Literal.Pos (Var.Stench p.position)
  let var3 := if !p.stench then var3.not else var3
  f ++ [[var3]]

/-- The "at least one Wumpus" clause of `init_kb` (src/kb.rs lines
189-199): one literal per cell, cells enumerated with `i` outer and
`j` inner. -/
def wumpusALO (size : Nat) : List (Literal Var) :=
  ((List.range size).map (fun i =>
    (List.range size).map (fun j => Literal.Pos (Var.Wumpus ⟨i, j⟩)))).flatten

/-- The "at least one Gold" clause of `init_kb` (src/kb.rs lines
241-249). -/
def goldALO (size : Nat) : List (Literal Var) :=
  ((List.range size).map (fun i =>
    (List.range size).map (fun j => Literal.Pos (Var.Gold ⟨i, j⟩)))).flatten

/-- The "at most one Wumpus / at most one Gold" clauses of `init_kb`
(src/kb.rs lines 213-236): for every ordered pair of distinct cells, a
Wumpus pair clause followed by a Gold pair clause. -/
def pairwiseClauses (size : Nat) : List (List (Literal Var)) :=
  ((List.range size).map (fun i =>
    ((List.range size).map (fun j =>
      ((List.range size).map (fun x =>
        ((List.range size).map (fun y =>
          if (i, j) ≠ (x, y) then
            [[Literal.Neg (Var.Wumpus ⟨i, j⟩), Literal.Neg (Var.Wumpus ⟨x, y⟩)],
             [Literal.Neg (Var.Gold ⟨i, j⟩), Literal.Neg (Var.Gold ⟨x, y⟩)]]
          else [])).flatten)).flatten)).flatten)).flatten

/-- The direction list `[North, Sud, East, Ovest]` iterated by the
physics loop of `init_kb`. -/
def dirOrder : List Direction :=
  [Direction.North, Direction.Sud, Direction.East, Direction.Ovest]

/-- The physics clauses emitted for one cell by `init_kb` (src/kb.rs
lines 261-300): for every in-bounds direction a breeze clause
`[¬Pit(pos), Breeze(neighbour)]` then a stench clause
`[¬Wumpus(pos), Stench(neighbour)]`; afterwards the collected long
clauses `¬Breeze(pos) ∨ ⋁ Pit(neighbour)` and
`¬Stench(pos) ∨ ⋁ Wumpus(neighbour)`. -/
def physicsCell (size : Nat) (pos : Position) : List (List (Literal Var)) :=
  (dirOrder.map (fun dir =>
    if pos.possible_move dir size then
      [[Literal.Neg (Var.Pit pos), Literal.Pos (Var.Breeze (pos.move_clone dir))],
       [Literal.Neg (Var.Wumpus pos), Literal.Pos (Var.Stench (pos.move_clone dir))]]
    else [])).flatten
  ++ [Literal.Neg (Var.Breeze pos) ::
        (dirOrder.map (fun dir =>
          if pos.possible_move dir size then
            [Literal.Pos (Var.Pit (pos.move_clone dir))]
          else [])).flatten,
      Literal.Neg (Var.Stench pos) ::
        (dirOrder.map (fun dir =>
          if pos.possible_move dir size then
            [Literal.Pos (Var.Wumpus (pos.move_clone dir))]
          else [])).flatten]

/-- The physics section of `init_kb`: the per-cell clauses, cells
enumerated with `i` outer and `j` inner. -/
def physicsSection (size : Nat) : List (List (Literal Var)) :=
  ((List.range size).map (fun i =>
    ((List.range size).map (fun j => physicsCell size ⟨i, j⟩)).flatten)).flatten

/-- The safety clauses emitted for one cell by `init_kb` (src/kb.rs
lines 308-338). -/
def safetyCell (pos : Position) : List (List (Literal Var)) :=
  [[Literal.Pos (Var.Safe pos), Literal.Pos (Var.Wumpus pos), Literal.Pos (Var.Pit pos)],
   [Literal.Neg (Var.Safe pos), Literal.Neg (Var.Pit pos)],
   [Literal.Neg (Var.Safe pos), Literal.Neg (Var.Wumpus pos)]]

/-- The safety section of `init_kb`. -/
def safetySection (size : Nat) : List (List (Literal Var)) :=
  ((List.range size).map (fun i =>
    ((List.range size).map (fun j => safetyCell ⟨i, j⟩)).flatten)).flatten

/-- The full sequence of domain-level clauses emitted by `init_kb`
(src/kb.rs lines 182-346), in emission order. -/
def theoryClauses (size : Nat) : List (List (Literal Var)) :=
  [wumpusALO size]
  ++ [[Literal.Pos (Var.Safe ⟨0, 0⟩)]]
  ++ pairwiseClauses size
  ++ [goldALO size]
  ++ physicsSection size
  ++ safetySection size

/-- `init_kb` from src/kb.rs: fold the theory clauses into a fresh
encoder.  Each `kb.clause() … end()` builder sequence of the source
registers the literals in order and pushes the collected clause, which
is exactly `EncoderSAT.add` of that clause. -/
def init_kb (size : Nat) : EncoderSAT Var :=
  (theoryClauses size).foldl (fun kb c => kb.add c) EncoderSAT.new

/-! ### Propositional semantics of integer CNF -/

/-- Truth value of an integer literal under an assignment. -/
def evalLit (v : Nat → Bool) : Literal Nat → Bool
  | .Pos i => v i
  | .Neg i => !(v i)

/-- Truth value of an integer clause (disjunction). -/
def evalClause (v : Nat → Bool) (c : List (Literal Nat)) : Bool :=
  c.any (evalLit v)

/-- Truth value of an integer CNF (conjunction of clauses). -/
def satCNF (v : Nat → Bool) (cs : List (List (Literal Nat))) : Bool :=
  cs.all (evalClause v)

/-- Translation of a domain literal through a name table (the id a
lookup in the table yields; never applied below without the name being
present). -/
def transLit [DecidableEq T] (m : List (T × Nat)) (l : Literal T) : Literal Nat :=
  l.map (fun k => (findId m k).getD 0)

/-- Translation of a domain clause through a name table. -/
def transClause [DecidableEq T] (m : List (T × Nat)) (c : List (Literal T)) :
    List (Literal Nat) :=
  c.map (transLit m)

/-- Translation of a domain formula through a name table. -/
def transFormula [DecidableEq T] (m : List (T × Nat))
    (f : List (List (Literal T))) : List (List (Literal Nat)) :=
  f.map (transClause m)

/-! ### A brute-force exact SAT oracle

Used to instantiate the abstract oracle in witnesses: it decides
satisfiability of an integer CNF by enumerating assignments to the
variables that occur in it. -/

/-- The variables occurring in a CNF. -/
def cnfVars (cs : List (List (Literal Nat))) : List Nat :=
  (cs.map (fun c => c.map Literal.inner)).flatten

/-- Point update of an assignment. -/
def updateAssign (v : Nat → Bool) (x : Nat) (b : Bool) : Nat → Bool :=
  fun i => if i = x then b else v i

/-- All assignments (up to the listed variables) as a finite list. -/
def assignments : List Nat → List (Nat → Bool)
  | [] => [fun _ => false]
  | x :: xs =>
      (assignments xs).flatMap
        (fun v => [updateAssign v x true, updateAssign v x false])

/-- Brute-force satisfiability of an integer CNF. -/
def bruteSat (cs : List (List (Literal Nat))) : Bool :=
  (assignments (cnfVars cs)).any (fun v => satCNF v cs)

/-- The brute-force oracle handed to `ask` in witnesses. -/
def bruteOracle : Oracle := fun _ cs => bruteSat cs

theorem evalLit_congr {v1 v2 : Nat → Bool} {l : Literal Nat}
    (h : v1 l.inner = v2 l.inner) : evalLit v1 l = evalLit v2 l := by
  cases l <;> simp [evalLit, Literal.inner] at h ⊢ <;> rw [h]

theorem evalClause_congr {v1 v2 : Nat → Bool} {c : List (Literal Nat)}
    (h : ∀ l ∈ c, v1 l.inner = v2 l.inner) :
    evalClause v1 c = evalClause v2 c := by
  induction c with
  | nil => rfl
  | cons l ls ih =>
      simp only [evalClause, List.any_cons] at ih ⊢
      rw [evalLit_congr (h l (by simp)), ih (fun x hx => h x (by simp [hx]))]

theorem satCNF_congr {v1 v2 : Nat → Bool} {cs : List (List (Literal Nat))}
    (h : ∀ c ∈ cs, ∀ l ∈ c, v1 l.inner = v2 l.inner) :
    satCNF v1 cs = satCNF v2 cs := by
  induction cs with
  | nil => rfl
  | cons c cs ih =>
      simp only [satCNF, List.all_cons] at ih ⊢
      rw [evalClause_congr (h c (by simp)),
        ih (fun d hd => h d (by simp [hd]))]

theorem assignments_agree (v : Nat → Bool) (xs : List Nat) :
    ∃ va ∈ assignments xs, ∀ x ∈ xs, va x = v x := by
  induction xs with
  | nil => exact ⟨fun _ => false, by simp [assignments], by simp⟩
  | cons x xs ih =>
      obtain ⟨va, hmem, hagree⟩ := ih
      refine ⟨updateAssign va x (v x), ?_, ?_⟩
      · simp only [assignments, List.mem_flatMap]
        refine ⟨va, hmem, ?_⟩
        cases h : v x <;> simp [h]
      · intro y hy
        by_cases hxy : y = x
        · subst hxy; simp [updateAssign]
        · simp only [updateAssign, if_neg hxy]
          exact hagree y (by simpa [hxy] using hy)

theorem bruteSat_exact (cs : List (List (Literal Nat))) :
    bruteSat cs = true ↔ ∃ v, satCNF v cs = true := by
  constructor
  · intro h
    simp only [bruteSat, List.any_eq_true] at h
    obtain ⟨v, _, hv⟩ := h
    exact ⟨v, hv⟩
  · rintro ⟨v, hv⟩
    obtain ⟨va, hmem, hagree⟩ := assignments_agree v (cnfVars cs)
    have : satCNF va cs = satCNF v cs := by
      refine satCNF_congr ?_
      intro c hc l hl
      exact hagree l.inner (by
        simp only [cnfVars, List.mem_flatten, List.mem_map]
        exact ⟨c.map Literal.inner, ⟨c, hc, rfl⟩, List.mem_map_of_mem _ hl⟩)
    simp only [bruteSat, List.any_eq_true]
    exact ⟨va, hmem, this.trans hv⟩

/-! ### Association-list lemmas -/

theorem findId_eq_none_iff [DecidableEq T] {m : List (T × Nat)} {k : T} :
    findId m k = none ↔ ∀ p ∈ m, p.1 ≠ k := by
  induction m with
  | nil => simp [findId]
  | cons p m ih =>
      by_cases h : p.1 = k <;> simp [findId, h, ih]

theorem findId_append_of_isSome [DecidableEq T] {m : List (T × Nat)} {k : T}
    {i : Nat} (h : findId m k = some i) (ext : List (T × Nat)) :
    findId (m ++ ext) k = some i := by
  induction m with
  | nil => simp [findId] at h
  | cons p m ih =>
      by_cases hp : p.1 = k <;> simp_all [findId, hp]

theorem findId_append_of_none [DecidableEq T] {m : List (T × Nat)} {k : T}
    (h : findId m k = none) (ext : List (T × Nat)) :
    findId (m ++ ext) k = findId ext k := by
  induction m with
  | nil => simp
  | cons p m ih =>
      by_cases hp : p.1 = k <;> simp_all [findId, hp]

theorem eraseKey_append_left [DecidableEq T] {m : List (T × Nat)} {k : T}
    (h : ∀ p ∈ m, p.1 ≠ k) (rest : List (T × Nat)) :
    eraseKey (m ++ rest) k = m ++ eraseKey rest k := by
  induction m with
  | nil => simp
  | cons p m ih =>
      have hp : p.1 ≠ k := h p (by simp)
      rw [List.cons_append, eraseKey, if_neg hp,
        ih (fun q hq => h q (by simp [hq])), List.cons_append]

theorem eraseFold [DecidableEq T] (ext : List (T × Nat)) :
    ∀ m0 : List (T × Nat), (∀ p ∈ ext, findId m0 p.1 = none) →
    (ext.map Prod.fst).Nodup →
    (ext.map Prod.fst).foldl (fun m k => eraseKey m k) (m0 ++ ext) = m0 := by
  induction ext with
  | nil => intro m0 _ _; simp
  | cons p ext ih =>
      intro m0 hnone hnd
      simp only [List.map_cons, List.foldl_cons]
      have h1 : eraseKey (m0 ++ p :: ext) p.1 = m0 ++ ext := by
        rw [eraseKey_append_left
          (findId_eq_none_iff.mp (hnone p (by simp))) (p :: ext)]
        simp [eraseKey]
      rw [h1]
      simp only [List.map_cons, List.nodup_cons] at hnd
      refine ih m0 ?_ hnd.2
      intro q hq
      exact hnone q (by simp [hq])

/-! ### The snapshot invariant

`SnapInv E0 E` relates the state `E0` at which `snapshot()` returned
to any state `E` reached from it by clause additions and variable
registrations: the snapshot slot records `E0`'s counter and clause
count together with the list of names interned since, the name table
and the clause store are extensions of `E0`'s, and the recorded new
names are exactly the keys of the table extension, each fresh for
`E0`. -/

def SnapInv [DecidableEq T] (E0 E : EncoderSAT T) : Prop :=
  ∃ news ext added,
    E.snapshot = some ⟨E0.counter, E0.clauses.length, news⟩ ∧
    E.map = E0.map ++ ext ∧
    ext.map Prod.fst = news ∧
    (∀ p ∈ ext, findId E0.map p.1 = none) ∧
    news.Nodup ∧
    E.clauses = E0.clauses ++ added

theorem snapInv_snapWith [DecidableEq T] (E0 : EncoderSAT T) :
    SnapInv E0 E0.snapWith :=
  ⟨[], [], [], rfl, by simp [EncoderSAT.snapWith], rfl, by simp,
    List.nodup_nil, by simp [EncoderSAT.snapWith]⟩

theorem snapInv_add_raw [DecidableEq T] {E0 E : EncoderSAT T}
    (h : SnapInv E0 E) (c : List (Literal Nat)) :
    SnapInv E0 (E.add_raw_clause c) := by
  obtain ⟨news, ext, added, h1, h2, h3, h4, h5, h6⟩ := h
  exact ⟨news, ext, added ++ [c], h1, h2, h3, h4, h5,
    by simp [EncoderSAT.add_raw_clause, h6]⟩

theorem snapInv_raw_var [DecidableEq T] {E0 E : EncoderSAT T}
    (h : SnapInv E0 E) : SnapInv E0 E.create_raw_variable.2 := by
  obtain ⟨news, ext, added, h1, h2, h3, h4, h5, h6⟩ := h
  exact ⟨news, ext, added, h1, h2, h3, h4, h5, h6⟩

theorem snapInv_register_literal [DecidableEq T] {E0 E : EncoderSAT T}
    (h : SnapInv E0 E) (l : Literal T) :
    SnapInv E0 (E.register_literal l).2 := by
  obtain ⟨news, ext, added, h1, h2, h3, h4, h5, h6⟩ := h
  rw [EncoderSAT.register_literal]
  cases hf : findId E.map l.inner with
  | some id => exact ⟨news, ext, added, h1, h2, h3, h4, h5, h6⟩
  | none =>
      refine ⟨news ++ [l.inner], ext ++ [(l.inner, E.counter + 1)], added,
        ?_, ?_, ?_, ?_, ?_, ?_⟩
      · simp [h1]
      · simp [h2]
      · simp [h3]
      · intro p hp
        rcases List.mem_append.mp hp with hp | hp
        · exact h4 p hp
        · have : p = (l.inner, E.counter + 1) := by simpa using hp
          subst this
          rw [h2, findId_eq_none_iff] at hf
          exact findId_eq_none_iff.mpr (fun q hq => hf q (by simp [hq]))
      · rw [List.nodup_append]
        refine ⟨h5, by simp, ?_⟩
        intro a ha
        simp only [List.mem_singleton]
        intro hal
        subst hal
        rw [h2, findId_eq_none_iff] at hf
        rw [← h3] at ha
        obtain ⟨p, hp, hpa⟩ := List.mem_map.mp ha
        exact hf p (by simp [hp]) hpa
      · exact h6

theorem snapInv_register_clause [DecidableEq T] {E0 E : EncoderSAT T}
    (h : SnapInv E0 E) (c : List (Literal T)) :
    SnapInv E0 (E.register_clause c).2 := by
  induction c generalizing E with
  | nil => exact h
  | cons l ls ih =>
      rw [EncoderSAT.register_clause]
      exact ih (snapInv_register_literal h l)

theorem snapInv_add [DecidableEq T] {E0 E : EncoderSAT T}
    (h : SnapInv E0 E) (c : List (Literal T)) : SnapInv E0 (E.add c) := by
  rw [EncoderSAT.add]
  obtain ⟨news, ext, added, h1, h2, h3, h4, h5, h6⟩ :=
    snapInv_register_clause h c
  exact ⟨news, ext, added ++ [(E.register_clause c).1], h1, h2, h3, h4, h5,
    by simp [h6]⟩

theorem take_len_append {U : Type} (a b : List U) :
    (a ++ b).take a.length = a := by
  induction a with
  | nil => simp
  | cons x xs ih => simp [ih]

/-- A state related to `E0` by the snapshot invariant rewinds exactly
to `E0` (with the snapshot slot cleared). -/
theorem rewindOp_of_snapInv [DecidableEq T] {E0 E : EncoderSAT T}
    (h : SnapInv E0 E) :
    E.rewindOp = some { E0 with snapshot := none } := by
  obtain ⟨news, ext, added, h1, h2, h3, h4, h5, h6⟩ := h
  rw [EncoderSAT.rewindOp, h1]
  have hmap : news.foldl (fun m k => eraseKey m k) E.map = E0.map := by
    rw [h2, ← h3]
    exact eraseFold ext E0.map h4 (h3 ▸ h5)
  have hcl : E.clauses.take E0.clauses.length = E0.clauses := by
    rw [h6, take_len_append]
  simp [hmap, hcl]

theorem eta_snapshot_none {E : EncoderSAT T} (h : E.snapshot = none) :
    { E with snapshot := none } = E := by
  cases E
  simp_all

theorem snapInv_linkNeg [DecidableEq T] {E0 E : EncoderSAT T}
    (h : SnapInv E0 E) (t : Literal Nat) (c : List (Literal T)) :
    SnapInv E0 (linkNeg t E c) := by
  induction c generalizing E with
  | nil => exact h
  | cons l ls ih =>
      rw [linkNeg]
      exact ih (snapInv_add_raw (snapInv_register_literal h l.not) _)

theorem snapInv_askClauseStep [DecidableEq T] {E0 E : EncoderSAT T}
    (h : SnapInv E0 E) (c : List (Literal T)) :
    SnapInv E0 (askClauseStep E c).2 := by
  rw [askClauseStep]
  exact snapInv_add_raw
    (snapInv_register_clause (snapInv_linkNeg (snapInv_raw_var h) _ c) c) _

theorem snapInv_askLoop [DecidableEq T] {E0 E : EncoderSAT T}
    (h : SnapInv E0 E) (f : List (List (Literal T))) :
    SnapInv E0 (askLoop E f).2 := by
  induction f generalizing E with
  | nil => exact h
  | cons c cs ih =>
      rw [askLoop]
      exact ih (snapInv_askClauseStep h c)

theorem snapInv_foldl_add_not [DecidableEq T] {E0 E : EncoderSAT T}
    (h : SnapInv E0 E) (c : List (Literal T)) :
    SnapInv E0 (c.foldl (fun acc l => acc.add [l.not]) E) := by
  induction c generalizing E with
  | nil => exact h
  | cons l ls ih => exact ih (snapInv_add h [l.not])

theorem snapInv_askAug [DecidableEq T] {E0 E : EncoderSAT T}
    (h : SnapInv E0 E) (f : List (List (Literal T))) :
    SnapInv E0 (askAug E f) := by
  match f with
  | [] => exact h
  | [c] =>
      rw [askAug]
      exact snapInv_foldl_add_not h c
  | c1 :: c2 :: cs =>
      rw [askAug]
      exact snapInv_add_raw (snapInv_askLoop h _) _

/-- The central state lemma for `ask` (src/kb.rs): on a
snapshot-free state `ask` always succeeds and returns the state
unchanged, with the verdict being the negated solver answer on the
augmented state (`false` for the empty formula, decided before the
solver). -/
theorem ask_eq [DecidableEq T] (oracle : Oracle) (e : EncoderSAT T)
    (f : List (List (Literal T))) (h : e.snapshot = none) :
    ask oracle e f = some
      (match f with
       | [] => false
       | _ :: _ =>
           !(oracle (askAug e.snapWith f).counter (askAug e.snapWith f).clauses),
       e) := by
  have hsnap : e.snapshotOp = some e.snapWith := by
    rw [EncoderSAT.snapshotOp, h]
  match f with
  | [] =>
      rw [ask, hsnap]
      simp only
      rw [rewindOp_of_snapInv (snapInv_snapWith e), eta_snapshot_none h]
      rfl
  | c :: cs =>
      rw [ask, hsnap]
      simp only
      rw [rewindOp_of_snapInv (snapInv_askAug (snapInv_snapWith e) (c :: cs)),
        eta_snapshot_none h]
      rfl

/-! ### Arbitrary mutation sequences between snapshot and rewind -/

/-- The mutating encoder operations available between `snapshot()` and
`rewind()`: named clause addition (`add`, hence also `tell`), raw
clause addition, raw variable allocation and literal registration. -/
inductive EncOp (T : Type) where
  | addOp (c : List (Literal T))
  | addRawOp (c : List (Literal Nat))
  | rawVarOp
  | regLitOp (l : Literal T)
  | tellOp (f : List (List (Literal T)))

/-- Apply one mutating operation. -/
def applyOp [DecidableEq T] (e : EncoderSAT T) : EncOp T → EncoderSAT T
  | .addOp c => e.add c
  | .addRawOp c => e.add_raw_clause c
  | .rawVarOp => e.create_raw_variable.2
  | .regLitOp l => (e.register_literal l).2
  | .tellOp f => tell e f

/-- Apply a sequence of mutating operations left to right. -/
def applyOps [DecidableEq T] (e : EncoderSAT T) (ops : List (EncOp T)) :
    EncoderSAT T :=
  ops.foldl applyOp e

theorem snapInv_tell [DecidableEq T] {E0 E : EncoderSAT T}
    (h : SnapInv E0 E) (f : List (List (Literal T))) :
    SnapInv E0 (tell E f) := by
  induction f generalizing E with
  | nil => exact h
  | cons c cs ih => exact ih (snapInv_add h c)

theorem snapInv_applyOp [DecidableEq T] {E0 E : EncoderSAT T}
    (h : SnapInv E0 E) (op : EncOp T) : SnapInv E0 (applyOp E op) := by
  cases op with
  | addOp c => exact snapInv_add h c
  | addRawOp c => exact snapInv_add_raw h c
  | rawVarOp => exact snapInv_raw_var h
  | regLitOp l => exact snapInv_register_literal h l
  | tellOp f => exact snapInv_tell h f

theorem snapInv_applyOps [DecidableEq T] {E0 E : EncoderSAT T}
    (h : SnapInv E0 E) (ops : List (EncOp T)) :
    SnapInv E0 (applyOps E ops) := by
  induction ops generalizing E with
  | nil => exact h
  | cons op ops ih => exact ih (snapInv_applyOp h op)

/-- C1: for every encoder state `K` (between operations, i.e. holding
no snapshot) and every formula `φ` — empty, single-clause or
multi-clause — `ask(φ)` succeeds and returns `K` itself: the clause
sequence, variable counter, name table and snapshot slot (hence also
the DIMACS output of `encode`) are exactly as before the call, the
Tseytin auxiliaries and negated-query clauses all being rolled back by
the rewind. -/
theorem ask_purity [DecidableEq T] (oracle : Oracle) (K : EncoderSAT T)
    (f : List (List (Literal T))) (h : K.snapshot = none) :
    ∃ b, ask oracle K f = some (b, K) :=
  ⟨_, ask_eq oracle K f h⟩

theorem ask_purity_witness :
    (EncoderSAT.new : EncoderSAT String).snapshot = none ∧
    ∃ b, ask bruteOracle (EncoderSAT.new : EncoderSAT String)
        [[Literal.Pos "A"], [Literal.Neg "B"]] =
      some (b, EncoderSAT.new) :=
  ⟨rfl, ask_purity bruteOracle EncoderSAT.new
    [[Literal.Pos "A"], [Literal.Neg "B"]] rfl⟩

/-- C3: for every encoder `E` (holding no snapshot), performing
`snapshot()`, then any sequence of clause additions and variable
registrations — named or raw, including whole `tell(φ)` calls and raw
Tseytin allocations — and then `rewind()`, yields back exactly `E`:
same counter, same clause list, same name table (hence bit-identical
DIMACS output and name table). -/
theorem rewind_reversibility [DecidableEq T] (E : EncoderSAT T)
    (ops : List (EncOp T)) (h : E.snapshot = none) :
    E.snapshotOp.bind (fun e1 => (applyOps e1 ops).rewindOp) = some E := by
  have hsnap : E.snapshotOp = some E.snapWith := by
    rw [EncoderSAT.snapshotOp, h]
  rw [hsnap]
  show (applyOps E.snapWith ops).rewindOp = some E
  rw [rewindOp_of_snapInv (snapInv_applyOps (snapInv_snapWith E) ops),
    eta_snapshot_none h]

theorem rewind_reversibility_witness :
    (EncoderSAT.new : EncoderSAT String).snapshot = none ∧
    (EncoderSAT.new : EncoderSAT String).snapshotOp.bind
      (fun e1 => (applyOps e1
        [EncOp.tellOp [[Literal.Pos "A"], [Literal.Neg "B"]],
         EncOp.rawVarOp,
         EncOp.addRawOp [Literal.Pos 3],
         EncOp.regLitOp (Literal.Neg "C")]).rewindOp) =
      some EncoderSAT.new :=
  ⟨rfl, rewind_reversibility EncoderSAT.new _ rfl⟩

/-- C7: on every KB state (between operations, i.e. holding no
snapshot), `ask` of the empty formula returns `false` and leaves the
KB unchanged, for an arbitrary solver oracle — the empty-formula
branch takes the snapshot, rewinds it and returns before any solver
call, so the verdict does not depend on the oracle at all. -/
theorem ask_empty_false [DecidableEq T] (oracle : Oracle)
    (K : EncoderSAT T) (h : K.snapshot = none) :
    ask oracle K [] = some (false, K) :=
  ask_eq oracle K [] h

theorem ask_empty_false_witness :
    (EncoderSAT.new : EncoderSAT String).snapshot = none ∧
    ask (fun _ _ => true) (EncoderSAT.new : EncoderSAT String) [] =
      some (false, EncoderSAT.new) :=
  ⟨rfl, ask_empty_false (fun _ _ => true) EncoderSAT.new rfl⟩

/-- C9: `snapshot()` fails its assertion (the program aborts, modelled
as `none`) exactly when a snapshot already exists, and `rewind()`
fails its `expect` (abort, modelled as `none`) exactly when no
snapshot exists. -/
theorem snapshot_misuse_aborts [DecidableEq T] (e : EncoderSAT T) :
    (e.snapshot.isSome = true → e.snapshotOp = none) ∧
    (e.snapshot = none → e.rewindOp = none) := by
  constructor
  · intro h
    rw [EncoderSAT.snapshotOp]
    cases hs : e.snapshot with
    | some s => rfl
    | none => rw [hs] at h; simp at h
  · intro h
    rw [EncoderSAT.rewindOp, h]

theorem snapshot_misuse_aborts_witness :
    (⟨[], [], 0, some ⟨0, 0, []⟩⟩ : EncoderSAT String).snapshotOp = none ∧
    (EncoderSAT.new : EncoderSAT String).rewindOp = none :=
  ⟨(snapshot_misuse_aborts ⟨[], [], 0, some ⟨0, 0, []⟩⟩).1 rfl,
   (snapshot_misuse_aborts EncoderSAT.new).2 rfl⟩

/-- C10: for every position with coordinates in `[0, size)`, every
direction and every `size > 0`, if `possible_move` returns `true` then
`move_clone` performs no unsigned-integer underflow and the resulting
coordinates are again within `[0, size)`; without the precondition,
`move_clone` underflows going `North` at `y = 0` and `Ovest` at
`x = 0`. -/
theorem move_safety :
    (∀ (p : Position) (dir : Direction) (size : Nat),
      0 < size → p.x < size → p.y < size →
      p.possible_move dir size = true →
      p.move_underflows dir = false ∧
      (p.move_clone dir).x < size ∧ (p.move_clone dir).y < size) ∧
    (∀ x, Position.move_underflows ⟨x, 0⟩ Direction.North = true) ∧
    (∀ y, Position.move_underflows ⟨0, y⟩ Direction.Ovest = true) := by
  refine ⟨?_, ?_, ?_⟩
  · intro p dir size hs hx hy hmove
    cases dir <;>
      simp [Position.possible_move, Position.move_clone,
        Position.move_underflows] at hmove ⊢ <;>
      omega
  · intro x
    simp [Position.move_underflows]
  · intro y
    simp [Position.move_underflows]

theorem move_safety_witness :
    ((0 : Nat) < 2 ∧ (0 : Nat) < 2 ∧ (0 : Nat) < 2 ∧
      Position.possible_move ⟨0, 0⟩ Direction.Sud 2 = true) ∧
    (Position.move_underflows ⟨0, 0⟩ Direction.Sud = false ∧
      (Position.move_clone ⟨0, 0⟩ Direction.Sud).x < 2 ∧
      (Position.move_clone ⟨0, 0⟩ Direction.Sud).y < 2) ∧
    Position.move_underflows ⟨5, 0⟩ Direction.North = true ∧
    Position.move_underflows ⟨0, 5⟩ Direction.Ovest = true :=
  ⟨⟨by decide, by decide, by decide, by decide⟩,
   move_safety.1 ⟨0, 0⟩ Direction.Sud 2 (by decide) (by decide) (by decide)
     (by decide),
   move_safety.2.1 5, move_safety.2.2 5⟩

/-- C6: for every perception `p`, the ground-truth formula for the
current cell consists exactly of a `Breeze` unit clause whose polarity
is `p.breeze`, a positive `Gold` unit clause present only when
`p.glitter` is true, and a `Stench` unit clause whose polarity is
`p.stench` — in particular no `Gold` literal of either polarity occurs
when `p.glitter` is false. -/
theorem ground_truth_shape (p : Perceptions) :
    create_ground_truth_from_perception p =
      [[if p.breeze then Literal.Pos (Var.Breeze p.position)
        else Literal.Neg (Var.Breeze p.position)]]
      ++ (if p.glitter then [[Literal.Pos (Var.Gold p.position)]] else [])
      ++ [[if p.stench then Literal.Pos (Var.Stench p.position)
           else Literal.Neg (Var.Stench p.position)]] ∧
    (p.glitter = false → ∀ c ∈ create_ground_truth_from_perception p,
      ∀ l ∈ c, ∀ q, l.inner ≠ Var.Gold q) := by
  obtain ⟨g, s, b, hw, bp, pos, bs⟩ := p
  constructor
  · cases g <;> cases s <;> cases b <;> rfl
  · intro hg c hc l hl q
    subst hg
    cases s <;> cases b <;>
      (simp [create_ground_truth_from_perception, Literal.not] at hc
       rcases hc with hc | hc <;> subst hc <;>
         simp only [List.mem_singleton] at hl <;> subst hl <;>
         simp [Literal.inner])

theorem ground_truth_shape_witness :
    create_ground_truth_from_perception ⟨false, false, false, false, false, ⟨0, 0⟩, 2⟩ =
      [[Literal.Neg (Var.Breeze ⟨0, 0⟩)], [Literal.Neg (Var.Stench ⟨0, 0⟩)]] ∧
    (∀ c ∈ create_ground_truth_from_perception
        ⟨false, false, false, false, false, ⟨0, 0⟩, 2⟩,
      ∀ l ∈ c, ∀ q, l.inner ≠ Var.Gold q) := by
  refine ⟨?_, (ground_truth_shape _).2 rfl⟩
  rw [(ground_truth_shape _).1]
  rfl

/-! ### C8: DIMACS output -/

/-- Modelled from the spec: the text of one signed id. -/
def signedIdText : Literal Nat → String
  | .Pos i => Nat.repr i
  | .Neg i => "-" ++ Nat.repr i

/-- Modelled from the spec: join a list of words with single spaces. -/
def joinSep : List String → String
  | [] => ""
  | [s] => s
  | s :: rest => s ++ " " ++ joinSep rest

/-- Modelled from the spec: header `p cnf <counter> <#clauses>`, then
one line per clause holding its space-separated signed ids terminated
by `0`. -/
def dimacsSpec (nvars : Nat) (cs : List (List (Literal Nat))) : String :=
  "p cnf " ++ Nat.repr nvars ++ " " ++ Nat.repr cs.length ++ "\n" ++
    (cs.map (fun c => joinSep (c.map signedIdText ++ ["0"]) ++ "\n")).foldl
      (fun a b => a ++ b) ""

theorem joinSep_cons (s : String) {rest : List String} (h : rest ≠ []) :
    joinSep (s :: rest) = s ++ " " ++ joinSep rest := by
  cases rest with
  | nil => exact absurd rfl h
  | cons r rs => rfl

theorem foldl_str_append (xs : List String) :
    ∀ a : String, xs.foldl (fun u v => u ++ v) a =
      a ++ xs.foldl (fun u v => u ++ v) "" := by
  induction xs with
  | nil => intro a; simp
  | cons x xs ih =>
      intro a
      simp only [List.foldl_cons]
      rw [ih (a ++ x), ih ("" ++ x)]
      simp [String.append_assoc]

theorem clauseText_eq_spec (c : List (Literal Nat)) :
    clauseText c = joinSep (c.map signedIdText ++ ["0"]) := by
  induction c with
  | nil => rfl
  | cons l ls ih =>
      have h1 : clauseText (l :: ls) = litText l ++ clauseText ls := by
        simp only [clauseText, List.map_cons, List.foldl_cons]
        rw [foldl_str_append (ls.map litText) ("" ++ litText l)]
        simp [String.append_assoc]
      have h2 : litText l = signedIdText l ++ " " := by
        cases l <;> simp [litText, signedIdText, String.append_assoc]
      rw [h1, h2, ih, List.map_cons, List.cons_append,
        joinSep_cons _ (by simp), String.append_assoc]

/-- C8: for every encoder state, the text produced by `encode` is the
header line `p cnf <counter> <#clauses>` followed by one line per
stored clause holding its space-separated signed ids terminated by
`0`; concretely, the KB with variables A, B, C interned as 1, 2, 3 and
clauses `[A ∨ ¬B]`, `[B ∨ C]` emits exactly
`p cnf 3 2\n1 -2 0\n2 3 0\n` and the name table `[A, B, C]`. -/
theorem encode_dimacs :
    (∀ (U : Type) (e : EncoderSAT U),
      e.encode.1 = dimacsSpec e.counter e.clauses) ∧
    (tell (EncoderSAT.new : EncoderSAT String)
        [[Literal.Pos "A", Literal.Neg "B"],
         [Literal.Pos "B", Literal.Pos "C"]]).encode =
      ("p cnf 3 2\n1 -2 0\n2 3 0\n", ["A", "B", "C"]) := by
  constructor
  · intro U e
    simp only [EncoderSAT.encode, dimacsSpec]
    have : e.clauses.map (fun c => clauseText c ++ "\n") =
        e.clauses.map (fun c => joinSep (c.map signedIdText ++ ["0"]) ++ "\n") := by
      apply List.map_congr_left
      intro c _
      rw [clauseText_eq_spec]
    rw [this]
  · rfl

/-! ### Well-formed encoder states and state evolution

The spec's data-model invariant: every id in a stored clause and every
id in the name table has been allocated (is at most `counter`). -/

/-- Every name-table id is allocated. -/
def WFmap (e : EncoderSAT T) : Prop := ∀ p ∈ e.map, p.2 ≤ e.counter

/-- Every id in every stored clause is allocated. -/
def WFclauses (e : EncoderSAT T) : Prop :=
  ∀ c ∈ e.clauses, ∀ l ∈ c, l.inner ≤ e.counter

/-- `t` is not the id of any name-table entry of `m` (raw Tseytin ids
never enter the name table). -/
def NotMapId (t : Nat) (m : List (T × Nat)) : Prop := ∀ p ∈ m, p.2 ≠ t

/-- How the encoder state grows during registrations and raw
allocations: the name table is extended only with ids above the old
counter, the counter never decreases, allocated-id bounds are kept,
and ids that were fresh raw ids stay outside the name table. -/
def Extends (e e' : EncoderSAT T) : Prop :=
  (∃ ext, e'.map = e.map ++ ext ∧ ∀ p ∈ ext, e.counter < p.2 ∧ p.2 ≤ e'.counter) ∧
  e.counter ≤ e'.counter ∧
  (WFmap e → WFmap e') ∧
  (∀ t, t ≤ e.counter → NotMapId t e.map → NotMapId t e'.map)

theorem extends_refl (e : EncoderSAT T) : Extends e e :=
  ⟨⟨[], by simp, by simp⟩, le_refl _, fun h => h, fun _ _ h => h⟩

theorem extends_trans {e1 e2 e3 : EncoderSAT T}
    (h12 : Extends e1 e2) (h23 : Extends e2 e3) : Extends e1 e3 := by
  obtain ⟨⟨x12, hm12, hb12⟩, hc12, hw12, hn12⟩ := h12
  obtain ⟨⟨x23, hm23, hb23⟩, hc23, hw23, hn23⟩ := h23
  refine ⟨⟨x12 ++ x23, by rw [hm23, hm12, List.append_assoc], ?_⟩,
    le_trans hc12 hc23, fun h => hw23 (hw12 h), ?_⟩
  · intro p hp
    rcases List.mem_append.mp hp with hp | hp
    · obtain ⟨h1, h2⟩ := hb12 p hp
      exact ⟨h1, le_trans h2 hc23⟩
    · obtain ⟨h1, h2⟩ := hb23 p hp
      exact ⟨lt_of_le_of_lt hc12 h1, h2⟩
  · intro t ht hn
    exact hn23 t (le_trans ht hc12) (hn12 t ht hn)

theorem findId_of_extends [DecidableEq T] {e e' : EncoderSAT T}
    (h : Extends e e') {k : T} {i : Nat} (hf : findId e.map k = some i) :
    findId e'.map k = some i := by
  obtain ⟨⟨ext, hm, _⟩, _, _, _⟩ := h
  rw [hm]
  exact findId_append_of_isSome hf ext

theorem isSome_of_extends [DecidableEq T] {e e' : EncoderSAT T}
    (h : Extends e e') {k : T} (hf : (findId e.map k).isSome = true) :
    (findId e'.map k).isSome = true := by
  cases hg : findId e.map k with
  | none => rw [hg] at hf; simp at hf
  | some i => rw [findId_of_extends h hg]; rfl

theorem findId_mem [DecidableEq T] {m : List (T × Nat)} {k : T} {i : Nat}
    (h : findId m k = some i) : (k, i) ∈ m := by
  induction m with
  | nil => simp [findId] at h
  | cons p m ih =>
      rw [findId] at h
      by_cases hp : p.1 = k
      · rw [if_pos hp] at h
        have hpk : (k, i) = p := by
          cases p
          simp_all
        rw [hpk]
        exact List.mem_cons_self _ _
      · rw [if_neg hp] at h
        exact List.mem_cons_of_mem _ (ih h)

theorem Literal.inner_map {U V : Type} (f : U → V) (l : Literal U) :
    (l.map f).inner = f l.inner := by
  cases l <;> rfl

theorem Literal.map_congr {U V : Type} {f g : U → V} (l : Literal U)
    (h : f l.inner = g l.inner) : l.map f = l.map g := by
  cases l <;> simp_all [Literal.map, Literal.inner]

theorem Literal.inner_not {U : Type} (l : Literal U) :
    l.not.inner = l.inner := by
  cases l <;> rfl

theorem transLit_not [DecidableEq T] (m : List (T × Nat)) (l : Literal T) :
    transLit m l.not = (transLit m l).not := by
  cases l <;> rfl

theorem evalLit_not (v : Nat → Bool) (l : Literal Nat) :
    evalLit v l.not = !(evalLit v l) := by
  cases l <;> simp [evalLit, Literal.not]

theorem transLit_of_extends [DecidableEq T] {e e' : EncoderSAT T}
    (h : Extends e e') {l : Literal T}
    (hf : (findId e.map l.inner).isSome = true) :
    transLit e'.map l = transLit e.map l := by
  cases hg : findId e.map l.inner with
  | none => rw [hg] at hf; simp at hf
  | some i =>
      unfold transLit
      refine Literal.map_congr l ?_
      rw [hg, findId_of_extends h hg]

theorem transClause_of_extends [DecidableEq T] {e e' : EncoderSAT T}
    (h : Extends e e') {c : List (Literal T)}
    (hf : ∀ l ∈ c, (findId e.map l.inner).isSome = true) :
    transClause e'.map c = transClause e.map c := by
  unfold transClause
  exact List.map_congr_left (fun l hl => transLit_of_extends h (hf l hl))

theorem extends_register_literal [DecidableEq T] (e : EncoderSAT T)
    (l : Literal T) : Extends e (e.register_literal l).2 := by
  rw [EncoderSAT.register_literal]
  cases hf : findId e.map l.inner with
  | some id => exact extends_refl e
  | none =>
      simp only
      refine ⟨⟨[(l.inner, e.counter + 1)], rfl, by simp⟩, by simp, ?_, ?_⟩
      · intro hw p hp
        rcases List.mem_append.mp hp with hp | hp
        · exact le_trans (hw p hp) (by simp)
        · have : p = (l.inner, e.counter + 1) := by simpa using hp
          simp [this]
      · intro t ht hn p hp
        rcases List.mem_append.mp hp with hp | hp
        · exact hn p hp
        · have : p = (l.inner, e.counter + 1) := by simpa using hp
          simp only [this]
          omega

theorem register_literal_clauses [DecidableEq T] (e : EncoderSAT T)
    (l : Literal T) : (e.register_literal l).2.clauses = e.clauses := by
  rw [EncoderSAT.register_literal]
  cases hf : findId e.map l.inner <;> rfl

theorem register_literal_snapshot [DecidableEq T] (e : EncoderSAT T)
    (l : Literal T) :
    (e.register_literal l).2.snapshot.isSome = e.snapshot.isSome := by
  rw [EncoderSAT.register_literal]
  cases hf : findId e.map l.inner with
  | some id => rfl
  | none => simp

theorem register_literal_found [DecidableEq T] (e : EncoderSAT T)
    (l : Literal T) :
    findId (e.register_literal l).2.map l.inner =
      some (e.register_literal l).1.inner ∧
    (e.register_literal l).1 = transLit (e.register_literal l).2.map l := by
  cases hf : findId e.map l.inner with
  | some id =>
      simp only [EncoderSAT.register_literal, hf]
      refine ⟨by rw [Literal.inner_map], ?_⟩
      unfold transLit
      refine Literal.map_congr l ?_
      rw [hf]
      rfl
  | none =>
      have hid : findId (e.map ++ [(l.inner, e.counter + 1)]) l.inner =
          some (e.counter + 1) := by
        rw [findId_append_of_none hf, findId, if_pos rfl]
      simp only [EncoderSAT.register_literal, hf]
      refine ⟨by rw [Literal.inner_map]; exact hid, ?_⟩
      unfold transLit
      refine Literal.map_congr l ?_
      rw [hid]
      rfl

theorem register_literal_of_present [DecidableEq T] (e : EncoderSAT T)
    (l : Literal T) (h : (findId e.map l.inner).isSome = true) :
    (e.register_literal l).2 = e ∧
    (e.register_literal l).1 = transLit e.map l := by
  cases hg : findId e.map l.inner with
  | none => rw [hg] at h; simp at h
  | some i =>
      simp only [EncoderSAT.register_literal, hg]
      exact ⟨trivial, Literal.map_congr l (by rw [hg]; rfl)⟩

theorem extends_add_raw (e : EncoderSAT T) (c : List (Literal Nat)) :
    Extends e (e.add_raw_clause c) :=
  ⟨⟨[], by simp [EncoderSAT.add_raw_clause], by simp⟩, le_refl _,
   fun h => h, fun _ _ h => h⟩

theorem extends_raw_var (e : EncoderSAT T) :
    Extends e e.create_raw_variable.2 := by
  refine ⟨⟨[], by simp [EncoderSAT.create_raw_variable], by simp⟩,
    by simp [EncoderSAT.create_raw_variable], ?_, fun _ _ h => h⟩
  intro hw p hp
  exact le_trans (hw p hp) (by simp [EncoderSAT.create_raw_variable])

theorem register_clause_of_present [DecidableEq T] (c : List (Literal T)) :
    ∀ e : EncoderSAT T, (∀ l ∈ c, (findId e.map l.inner).isSome = true) →
    (e.register_clause c).2 = e ∧
    (e.register_clause c).1 = transClause e.map c := by
  induction c with
  | nil => intro e _; exact ⟨rfl, rfl⟩
  | cons l ls ih =>
      intro e h
      obtain ⟨hst, hlit⟩ := register_literal_of_present e l (h l (by simp))
      rw [EncoderSAT.register_clause]
      obtain ⟨ihst, ihcl⟩ := ih (e.register_literal l).2
        (by rw [hst]; exact fun x hx => h x (by simp [hx]))
      simp only [hst] at ihst ihcl ⊢
      rw [ihst, hlit, ihcl]
      exact ⟨rfl, rfl⟩

theorem register_clause_spec [DecidableEq T] (c : List (Literal T)) :
    ∀ e : EncoderSAT T,
    Extends e (e.register_clause c).2 ∧
    (∀ l ∈ c, (findId (e.register_clause c).2.map l.inner).isSome = true) ∧
    (e.register_clause c).1 = transClause (e.register_clause c).2.map c ∧
    (e.register_clause c).2.clauses = e.clauses ∧
    (e.register_clause c).2.snapshot.isSome = e.snapshot.isSome := by
  induction c with
  | nil =>
      intro e
      exact ⟨extends_refl e, by simp, rfl, rfl, rfl⟩
  | cons l ls ih =>
      intro e
      obtain ⟨ihExt, ihSome, ihTr, ihCl, ihSnap⟩ := ih (e.register_literal l).2
      rw [EncoderSAT.register_clause]
      have hext : Extends e (((e.register_literal l).2.register_clause ls)).2 :=
        extends_trans (extends_register_literal e l) ihExt
      have hpres : (findId (((e.register_literal l).2.register_clause ls)).2.map
          l.inner).isSome = true := by
        refine isSome_of_extends ihExt ?_
        rw [(register_literal_found e l).1]
        rfl
      refine ⟨hext, ?_, ?_, ?_, ?_⟩
      · intro x hx
        rcases List.mem_cons.mp hx with hx | hx
        · rw [hx]; exact hpres
        · exact ihSome x hx
      · have h1 : (e.register_literal l).1 =
            transLit (((e.register_literal l).2.register_clause ls)).2.map l := by
          rw [(register_literal_found e l).2]
          exact (transLit_of_extends ihExt (by
            rw [(register_literal_found e l).1]; rfl)).symm
        rw [h1, ihTr]
        rfl
      · rw [ihCl, register_literal_clauses]
      · rw [ihSnap, register_literal_snapshot]

theorem add_spec [DecidableEq T] (e : EncoderSAT T) (c : List (Literal T)) :
    Extends e (e.add c) ∧
    (∀ l ∈ c, (findId (e.add c).map l.inner).isSome = true) ∧
    (e.add c).clauses = e.clauses ++ [transClause (e.add c).map c] ∧
    (e.add c).snapshot.isSome = e.snapshot.isSome := by
  obtain ⟨hExt, hSome, hTr, hCl, hSnap⟩ := register_clause_spec c e
  have hmap : (e.add c).map = (e.register_clause c).2.map := rfl
  have hcl2 : (e.add c).clauses =
      (e.register_clause c).2.clauses ++ [(e.register_clause c).1] := rfl
  have hsn : (e.add c).snapshot = (e.register_clause c).2.snapshot := rfl
  refine ⟨extends_trans hExt (extends_add_raw _ _), ?_, ?_, ?_⟩
  · intro l hl
    rw [hmap]
    exact hSome l hl
  · rw [hcl2, hCl, hTr, hmap]
  · rw [hsn, hSnap]

theorem linkNeg_spec [DecidableEq T] (c : List (Literal T)) (t : Literal Nat) :
    ∀ e : EncoderSAT T,
    Extends e (linkNeg t e c) ∧
    (∀ l ∈ c, (findId (linkNeg t e c).map l.inner).isSome = true) ∧
    (linkNeg t e c).clauses =
      e.clauses ++ c.map (fun l => [transLit (linkNeg t e c).map l.not, t.not]) ∧
    (linkNeg t e c).snapshot.isSome = e.snapshot.isSome := by
  induction c with
  | nil =>
      intro e
      exact ⟨extends_refl e, by simp, by simp [linkNeg], rfl⟩
  | cons l ls ih =>
      intro e
      rw [linkNeg]
      obtain ⟨ihExt, ihSome, ihCl, ihSnap⟩ :=
        ih ((e.register_literal l.not).2.add_raw_clause
          [(e.register_literal l.not).1, t.not])
      have hmap2 : ((e.register_literal l.not).2.add_raw_clause
          [(e.register_literal l.not).1, t.not]).map =
          (e.register_literal l.not).2.map := rfl
      have hExtA : Extends (e.register_literal l.not).2
          ((e.register_literal l.not).2.add_raw_clause
            [(e.register_literal l.not).1, t.not]) := extends_add_raw _ _
      have hExt : Extends e (linkNeg t ((e.register_literal l.not).2.add_raw_clause
          [(e.register_literal l.not).1, t.not]) ls) :=
        extends_trans (extends_register_literal e l.not)
          (extends_trans hExtA ihExt)
      have hpres1 : (findId (e.register_literal l.not).2.map l.inner).isSome
          = true := by
        have := (register_literal_found e l.not).1
        rw [Literal.inner_not] at this
        rw [this]
        rfl
      refine ⟨hExt, ?_, ?_, ?_⟩
      · intro x hx
        rcases List.mem_cons.mp hx with hx | hx
        · rw [hx]
          refine isSome_of_extends ihExt ?_
          rw [hmap2]
          exact hpres1
        · exact ihSome x hx
      · rw [ihCl]
        have hcl2 : ((e.register_literal l.not).2.add_raw_clause
            [(e.register_literal l.not).1, t.not]).clauses =
            e.clauses ++ [[(e.register_literal l.not).1, t.not]] := by
          rw [EncoderSAT.add_raw_clause, register_literal_clauses]
        rw [hcl2]
        have htr : transLit (linkNeg t ((e.register_literal l.not).2.add_raw_clause
              [(e.register_literal l.not).1, t.not]) ls).map l.not =
            transLit (e.register_literal l.not).2.map l.not := by
          refine transLit_of_extends (extends_trans hExtA ihExt) ?_
          rw [Literal.inner_not]
          exact hpres1
        have hlit : (e.register_literal l.not).1 =
            transLit (linkNeg t ((e.register_literal l.not).2.add_raw_clause
              [(e.register_literal l.not).1, t.not]) ls).map l.not :=
          (register_literal_found e l.not).2.trans htr.symm
        rw [List.map_cons, ← hlit, List.append_assoc]
        rfl
      · rw [ihSnap]
        have : ((e.register_literal l.not).2.add_raw_clause
            [(e.register_literal l.not).1, t.not]).snapshot =
            (e.register_literal l.not).2.snapshot := rfl
        rw [this, register_literal_snapshot]

theorem askClauseStep_spec [DecidableEq T] (e : EncoderSAT T)
    (c : List (Literal T)) (hw : WFmap e) :
    (askClauseStep e c).1 = Literal.Pos (e.counter + 1) ∧
    Extends e (askClauseStep e c).2 ∧
    e.counter + 1 ≤ (askClauseStep e c).2.counter ∧
    NotMapId (e.counter + 1) (askClauseStep e c).2.map ∧
    WFmap (askClauseStep e c).2 ∧
    (∀ l ∈ c, (findId (askClauseStep e c).2.map l.inner).isSome = true) ∧
    (askClauseStep e c).2.clauses = e.clauses
      ++ c.map (fun l => [transLit (askClauseStep e c).2.map l.not,
           Literal.Neg (e.counter + 1)])
      ++ [transClause (askClauseStep e c).2.map c
            ++ [Literal.Pos (e.counter + 1)]] ∧
    (askClauseStep e c).2.snapshot.isSome = e.snapshot.isSome := by
  obtain ⟨lExt, lSome, lCl, lSnap⟩ :=
    linkNeg_spec c (Literal.Pos (e.counter + 1))
      { e with counter := e.counter + 1 }
  obtain ⟨rcSt, rcVal⟩ := register_clause_of_present c
    (linkNeg (Literal.Pos (e.counter + 1))
      { e with counter := e.counter + 1 } c) lSome
  have h2 : (askClauseStep e c).2 =
      ((linkNeg (Literal.Pos (e.counter + 1))
          { e with counter := e.counter + 1 } c).register_clause c).2.add_raw_clause
        (((linkNeg (Literal.Pos (e.counter + 1))
            { e with counter := e.counter + 1 } c).register_clause c).1
          ++ [Literal.Pos (e.counter + 1)]) := rfl
  rw [rcSt, rcVal] at h2
  have hmapF : (askClauseStep e c).2.map =
      (linkNeg (Literal.Pos (e.counter + 1))
        { e with counter := e.counter + 1 } c).map := by
    rw [h2]
    rfl
  have hcntF : (askClauseStep e c).2.counter =
      (linkNeg (Literal.Pos (e.counter + 1))
        { e with counter := e.counter + 1 } c).counter := by
    rw [h2]
    rfl
  have hwR : WFmap ({ e with counter := e.counter + 1 } : EncoderSAT T) := by
    intro p hp
    exact le_trans (hw p hp) (by simp)
  have hnR : NotMapId (e.counter + 1)
      ({ e with counter := e.counter + 1 } : EncoderSAT T).map := by
    intro p hp
    have := hw p hp
    omega
  refine ⟨rfl, ?_, ?_, ?_, ?_, ?_, ?_, ?_⟩
  · rw [h2]
    exact extends_trans (extends_raw_var e)
      (extends_trans lExt (extends_add_raw _ _))
  · rw [hcntF]
    exact lExt.2.1
  · rw [hmapF]
    exact lExt.2.2.2 (e.counter + 1) (le_refl _) hnR
  · have hwL : WFmap (linkNeg (Literal.Pos (e.counter + 1))
        { e with counter := e.counter + 1 } c) := lExt.2.2.1 hwR
    intro p hp
    rw [hcntF]
    rw [hmapF] at hp
    exact hwL p hp
  · intro l hl
    rw [hmapF]
    exact lSome l hl
  · have hclF : (askClauseStep e c).2.clauses =
        (linkNeg (Literal.Pos (e.counter + 1))
          { e with counter := e.counter + 1 } c).clauses
        ++ [transClause (linkNeg (Literal.Pos (e.counter + 1))
              { e with counter := e.counter + 1 } c).map c
            ++ [Literal.Pos (e.counter + 1)]] := by
      rw [h2]
      rfl
    rw [hclF, lCl, hmapF]
    rfl
  · have hsnF : (askClauseStep e c).2.snapshot =
        (linkNeg (Literal.Pos (e.counter + 1))
          { e with counter := e.counter + 1 } c).snapshot := by
      rw [h2]
      rfl
    rw [hsnF, lSnap]

/-- The clauses the multi-clause branch of `ask` adds for a list of
query clauses, expressed relative to the final name table: for each
clause, one linking clause per literal and one clause with the Tseytin
auxiliary appended. -/
def linkBlocks [DecidableEq T] (m : List (T × Nat)) :
    List Nat → List (List (Literal T)) → List (List (Literal Nat))
  | t :: ts, c :: cs =>
      (c.map (fun l => [transLit m l.not, Literal.Neg t])
        ++ [transClause m c ++ [Literal.Pos t]])
      ++ linkBlocks m ts cs
  | _, _ => []

theorem askLoop_spec [DecidableEq T] (f : List (List (Literal T))) :
    ∀ e : EncoderSAT T, WFmap e →
    ∃ tl : List Nat,
      (askLoop e f).1 = tl.map Literal.Pos ∧
      tl.length = f.length ∧
      tl.Pairwise (fun a b => a < b) ∧
      (∀ t ∈ tl, e.counter < t ∧ t ≤ (askLoop e f).2.counter ∧
        NotMapId t (askLoop e f).2.map) ∧
      Extends e (askLoop e f).2 ∧
      WFmap (askLoop e f).2 ∧
      (∀ c ∈ f, ∀ l ∈ c, (findId (askLoop e f).2.map l.inner).isSome = true) ∧
      (askLoop e f).2.clauses = e.clauses ++ linkBlocks (askLoop e f).2.map tl f ∧
      (askLoop e f).2.snapshot.isSome = e.snapshot.isSome := by
  induction f with
  | nil =>
      intro e hw
      exact ⟨[], rfl, rfl, List.Pairwise.nil, by simp, extends_refl e, hw,
        by simp, by simp [askLoop, linkBlocks], rfl⟩
  | cons c cs ih =>
      intro e hw
      obtain ⟨s1, sExt, sCnt, sNot, sWF, sSome, sCl, sSnap⟩ :=
        askClauseStep_spec e c hw
      obtain ⟨tl, ih1, ihLen, ihPw, ihT, ihExt, ihWF, ihSome, ihCl, ihSnap⟩ :=
        ih (askClauseStep e c).2 sWF
      have hfst : (askLoop e (c :: cs)).1 =
          (askClauseStep e c).1 :: (askLoop (askClauseStep e c).2 cs).1 := rfl
      have hsnd : (askLoop e (c :: cs)).2 =
          (askLoop (askClauseStep e c).2 cs).2 := rfl
      refine ⟨(e.counter + 1) :: tl, ?_, ?_, ?_, ?_, ?_, ?_, ?_, ?_, ?_⟩
      · rw [hfst, s1, ih1]
        rfl
      · simp [ihLen]
      · exact List.pairwise_cons.mpr
          ⟨fun b hb => lt_of_le_of_lt sCnt (ihT b hb).1, ihPw⟩
      · intro t ht
        rcases List.mem_cons.mp ht with ht | ht
        · subst ht
          rw [hsnd]
          refine ⟨by omega, le_trans sCnt ihExt.2.1, ?_⟩
          exact ihExt.2.2.2 (e.counter + 1) sCnt sNot
        · obtain ⟨h1, h2, h3⟩ := ihT t ht
          rw [hsnd]
          exact ⟨by omega, h2, h3⟩
      · rw [hsnd]
        exact extends_trans sExt ihExt
      · rw [hsnd]
        exact ihWF
      · intro d hd l hl
        rw [hsnd]
        rcases List.mem_cons.mp hd with hd | hd
        · subst hd
          exact isSome_of_extends ihExt (sSome l hl)
        · exact ihSome d hd l hl
      · rw [hsnd, ihCl, sCl]
        have hA : c.map (fun l =>
            [transLit (askClauseStep e c).2.map l.not,
             Literal.Neg (e.counter + 1)]) =
            c.map (fun l =>
              [transLit (askLoop (askClauseStep e c).2 cs).2.map l.not,
               Literal.Neg (e.counter + 1)]) := by
          refine List.map_congr_left ?_
          intro l hl
          have hp : (findId (askClauseStep e c).2.map l.not.inner).isSome
              = true := by
            rw [Literal.inner_not]
            exact sSome l hl
          rw [transLit_of_extends ihExt hp]
        have hB : transClause (askClauseStep e c).2.map c =
            transClause (askLoop (askClauseStep e c).2 cs).2.map c :=
          (transClause_of_extends ihExt sSome).symm
        rw [hA, hB]
        simp only [linkBlocks]
        simp [List.append_assoc]
      · rw [hsnd, ihSnap, sSnap]

/-! ### Semantic lemmas for the Tseytin refutation -/

/-- Extension of an assignment on the Tseytin auxiliaries: each
auxiliary `t` paired with its integer clause `c` receives the value
`¬⟦c⟧` under the original assignment. -/
def override (v : Nat → Bool) : List (Nat × List (Literal Nat)) → Nat → Bool
  | [] => v
  | p :: ps => updateAssign (override v ps) p.1 (!(evalClause v p.2))

theorem override_not_mem (v : Nat → Bool)
    (ps : List (Nat × List (Literal Nat))) (x : Nat)
    (h : x ∉ ps.map Prod.fst) : override v ps x = v x := by
  induction ps with
  | nil => rfl
  | cons p ps ih =>
      simp only [List.map_cons, List.mem_cons] at h
      push_neg at h
      simp only [override, updateAssign, if_neg h.1]
      exact ih h.2

theorem override_mem (v : Nat → Bool)
    {ps : List (Nat × List (Literal Nat))} {t : Nat}
    {c : List (Literal Nat)} (hnd : (ps.map Prod.fst).Nodup)
    (hmem : (t, c) ∈ ps) : override v ps t = !(evalClause v c) := by
  induction ps with
  | nil => simp at hmem
  | cons p ps ih =>
      simp only [List.map_cons, List.nodup_cons] at hnd
      rcases List.mem_cons.mp hmem with hmem | hmem
      · rw [← hmem]
        simp [override, updateAssign]
      · have hne : t ≠ p.1 := by
          intro hEq
          refine hnd.1 ?_
          rw [← hEq]
          exact List.mem_map_of_mem Prod.fst hmem
        simp only [override, updateAssign, if_neg hne]
        exact ih hnd.2 hmem

theorem mem_zip_left {A B : Type} :
    ∀ {l1 : List A} {l2 : List B} {a : A}, a ∈ l1 →
    l1.length = l2.length → ∃ b, (a, b) ∈ l1.zip l2 := by
  intro l1
  induction l1 with
  | nil => intro l2 a ha; simp at ha
  | cons x xs ih =>
      intro l2 a ha hlen
      cases l2 with
      | nil => simp at hlen
      | cons y ys =>
          rcases List.mem_cons.mp ha with ha | ha
          · exact ⟨y, by rw [ha]; simp [List.zip_cons_cons]⟩
          · obtain ⟨b, hb⟩ := ih ha (by simpa using hlen)
            exact ⟨b, by simp [List.zip_cons_cons, hb]⟩

theorem mem_zip_right {A B : Type} :
    ∀ {l1 : List A} {l2 : List B} {b : B}, b ∈ l2 →
    l1.length = l2.length → ∃ a, (a, b) ∈ l1.zip l2 := by
  intro l1
  induction l1 with
  | nil =>
      intro l2 b hb hlen
      cases l2 with
      | nil => simp at hb
      | cons y ys => simp at hlen
  | cons x xs ih =>
      intro l2 b hb hlen
      cases l2 with
      | nil => simp at hb
      | cons y ys =>
          rcases List.mem_cons.mp hb with hb | hb
          · exact ⟨x, by rw [hb]; simp [List.zip_cons_cons]⟩
          · obtain ⟨a, ha⟩ := ih hb (by simpa using hlen)
            exact ⟨a, by simp [List.zip_cons_cons, ha]⟩

theorem satCNF_append (v : Nat → Bool) (a b : List (List (Literal Nat))) :
    satCNF v (a ++ b) = (satCNF v a && satCNF v b) := by
  simp [satCNF, List.all_append]

/-- If the linking clauses are all satisfied and an auxiliary is true,
the corresponding translated query clause is false. -/
theorem linkBlocks_sound [DecidableEq T] (m : List (T × Nat))
    (v : Nat → Bool) :
    ∀ (tl : List Nat) (f : List (List (Literal T))),
    satCNF v (linkBlocks m tl f) = true →
    ∀ p ∈ tl.zip f, v p.1 = true →
      evalClause v (transClause m p.2) = false := by
  intro tl
  induction tl with
  | nil => intro f _ p hp; simp at hp
  | cons t ts ih =>
      intro f hsat p hp hv
      cases f with
      | nil => simp at hp
      | cons c cs =>
          rw [List.zip_cons_cons] at hp
          simp only [linkBlocks, satCNF_append, Bool.and_eq_true] at hsat
          obtain ⟨⟨hlink, hbig⟩, hrest⟩ := hsat
          rcases List.mem_cons.mp hp with hp | hp
          · subst hp
            simp only at hv
            simp only [satCNF, List.all_eq_true] at hlink
            simp only [evalClause, List.any_eq_false]
            intro x hx
            obtain ⟨l, hl, hxl⟩ := List.mem_map.mp hx
            have := hlink [transLit m l.not, Literal.Neg t]
              (List.mem_map_of_mem _ hl)
            simp only [evalClause, List.any_cons, List.any_nil,
              Bool.or_false, Bool.or_eq_true] at this
            rcases this with hcase | hcase
            · rw [transLit_not, evalLit_not] at hcase
              rw [← hxl]
              intro hEq
              rw [hEq] at hcase
              simp at hcase
            · simp [evalLit, hv] at hcase
          · exact ih cs hrest p hp hv

/-- If `w` agrees with `v` on all translated query ids and assigns
each Tseytin auxiliary the negation of its clause's value under `v`,
then `w` satisfies all the linking clauses. -/
theorem linkBlocks_complete [DecidableEq T] (m : List (T × Nat))
    (v w : Nat → Bool) :
    ∀ (tl : List Nat) (f : List (List (Literal T))),
    (∀ c ∈ f, ∀ l ∈ c, w (transLit m l).inner = v (transLit m l).inner) →
    (∀ p ∈ tl.zip f, w p.1 = !(evalClause v (transClause m p.2))) →
    tl.length = f.length →
    satCNF w (linkBlocks m tl f) = true := by
  intro tl
  induction tl with
  | nil =>
      intro f hagree hval hlen
      cases f with
      | nil => rfl
      | cons c cs => simp at hlen
  | cons t ts ih =>
      intro f hagree hval hlen
      cases f with
      | nil => simp at hlen
      | cons c cs =>
          have hAgreeClause : evalClause w (transClause m c) =
              evalClause v (transClause m c) := by
            refine evalClause_congr ?_
            intro x hx
            obtain ⟨l, hl, hxl⟩ := List.mem_map.mp hx
            rw [← hxl]
            exact hagree c (by simp) l hl
          have hw_t : w t = !(evalClause v (transClause m c)) := by
            refine hval (t, c) ?_
            rw [List.zip_cons_cons]
            simp
          simp only [linkBlocks, satCNF_append, Bool.and_eq_true]
          refine ⟨⟨?_, ?_⟩, ?_⟩
          · simp only [satCNF, List.all_eq_true]
            intro x hx
            obtain ⟨l, hl, hxl⟩ := List.mem_map.mp hx
            rw [← hxl]
            simp only [evalClause, List.any_cons, List.any_nil,
              Bool.or_false, Bool.or_eq_true]
            cases hvc : evalClause v (transClause m c) with
            | true =>
                right
                simp [evalLit, Literal.not, hw_t, hvc]
            | false =>
                left
                rw [transLit_not, evalLit_not]
                have hlitw : evalLit w (transLit m l) =
                    evalLit v (transLit m l) :=
                  evalLit_congr (hagree c (by simp) l hl)
                rw [hlitw]
                simp only [evalClause, List.any_eq_false] at hvc
                have hne := hvc (transLit m l)
                  (List.mem_map_of_mem (transLit m) hl)
                cases hb : evalLit v (transLit m l)
                · rfl
                · exact absurd hb hne
          · cases hvc : evalClause v (transClause m c) with
            | true =>
                simp only [satCNF, List.all_cons, List.all_nil,
                  Bool.and_true]
                rw [evalClause, List.any_append]
                rw [← evalClause, hAgreeClause, hvc]
                rfl
            | false =>
                simp only [satCNF, List.all_cons, List.all_nil,
                  Bool.and_true]
                rw [evalClause, List.any_append]
                have hwt : w t = true := by rw [hw_t, hvc]; rfl
                simp [evalLit, hwt]
          · refine ih cs (fun d hd => hagree d (by simp [hd])) ?_
              (by simpa using hlen)
            intro p hp
            refine hval p ?_
            rw [List.zip_cons_cons]
            exact List.mem_cons_of_mem _ hp

theorem foldl_add_not_spec [DecidableEq T] (c : List (Literal T)) :
    ∀ e : EncoderSAT T,
    Extends e (c.foldl (fun acc l => acc.add [l.not]) e) ∧
    (∀ l ∈ c, (findId (c.foldl (fun acc l => acc.add [l.not]) e).map
        l.inner).isSome = true) ∧
    (c.foldl (fun acc l => acc.add [l.not]) e).clauses =
      e.clauses ++ c.map (fun l =>
        [transLit (c.foldl (fun acc l => acc.add [l.not]) e).map l.not]) ∧
    (c.foldl (fun acc l => acc.add [l.not]) e).snapshot.isSome =
      e.snapshot.isSome := by
  induction c with
  | nil => intro e; exact ⟨extends_refl e, by simp, by simp, rfl⟩
  | cons l ls ih =>
      intro e
      obtain ⟨aExt, aSome, aCl, aSnap⟩ := add_spec e [l.not]
      obtain ⟨ihExt, ihSome, ihCl, ihSnap⟩ := ih (e.add [l.not])
      have hfold : (l :: ls).foldl (fun acc x => acc.add [x.not]) e =
          ls.foldl (fun acc x => acc.add [x.not]) (e.add [l.not]) := rfl
      rw [hfold]
      have hpres1 : (findId (e.add [l.not]).map l.inner).isSome = true := by
        have := aSome l.not (by simp)
        rw [Literal.inner_not] at this
        exact this
      refine ⟨extends_trans aExt ihExt, ?_, ?_, ?_⟩
      · intro x hx
        rcases List.mem_cons.mp hx with hx | hx
        · subst hx
          exact isSome_of_extends ihExt hpres1

        · exact ihSome x hx
      · rw [ihCl, aCl]
        have htr2 : transLit (ls.foldl (fun acc x => acc.add [x.not])
              (e.add [l.not])).map l.not =
            transLit (e.add [l.not]).map l.not :=
          transLit_of_extends ihExt (by rw [Literal.inner_not]; exact hpres1)
        have htr : transClause (e.add [l.not]).map [l.not] =
            [transLit (ls.foldl (fun acc x => acc.add [x.not])
              (e.add [l.not])).map l.not] := by
          rw [htr2]
          rfl
        rw [htr, List.map_cons, List.append_assoc]
        rfl
      · rw [ihSnap, aSnap]

theorem zip_proj {A B : Type} :
    ∀ {l1 : List A} {l2 : List B} {a : A} {b : B},
    (a, b) ∈ l1.zip l2 → a ∈ l1 ∧ b ∈ l2 := by
  intro l1
  induction l1 with
  | nil => intro l2 a b h; simp at h
  | cons x xs ih =>
      intro l2 a b h
      cases l2 with
      | nil => simp at h
      | cons y ys =>
          rw [List.zip_cons_cons] at h
          rcases List.mem_cons.mp h with h | h
          · injection h with h1 h2
            subst h1
            subst h2
            exact ⟨by simp, by simp⟩
          · obtain ⟨ha, hb⟩ := ih h
            exact ⟨by simp [ha], by simp [hb]⟩

/-- Tseytin equisatisfiability, multi-clause branch: the augmented
clause set built by `ask` for a query with at least two clauses is
satisfiable exactly when some assignment satisfies the KB clauses and
falsifies the translated query. -/
theorem askAug_multi_equisat [DecidableEq T] (K : EncoderSAT T)
    (hwm : WFmap K) (hwc : WFclauses K)
    (c1 c2 : List (Literal T)) (cs : List (List (Literal T))) :
    (∃ v, satCNF v (askAug K.snapWith (c1 :: c2 :: cs)).clauses = true) ↔
    (∃ v, satCNF v K.clauses = true ∧
      satCNF v (transFormula (askAug K.snapWith (c1 :: c2 :: cs)).map
        (c1 :: c2 :: cs)) = false) := by
  have hwm0 : WFmap K.snapWith := hwm
  obtain ⟨tl, h1, hLen, hPw, hT, hExt, hWF, hSome, hCl, hSnap⟩ :=
    askLoop_spec (c1 :: c2 :: cs) K.snapWith hwm0
  have haug2 : (askAug K.snapWith (c1 :: c2 :: cs)).clauses =
      (askLoop K.snapWith (c1 :: c2 :: cs)).2.clauses
        ++ [(askLoop K.snapWith (c1 :: c2 :: cs)).1] := rfl
  have haugmap : (askAug K.snapWith (c1 :: c2 :: cs)).map =
      (askLoop K.snapWith (c1 :: c2 :: cs)).2.map := rfl
  have hsnapcl : K.snapWith.clauses = K.clauses := rfl
  have hsnapcnt : K.snapWith.counter = K.counter := rfl
  have htlNodup : tl.Nodup := hPw.imp (fun h => Nat.ne_of_lt h)
  have hlenTrans : (transFormula
      (askLoop K.snapWith (c1 :: c2 :: cs)).2.map (c1 :: c2 :: cs)).length =
      (c1 :: c2 :: cs).length := by
    simp [transFormula]
  constructor
  · rintro ⟨v, hv⟩
    rw [haug2, satCNF_append, Bool.and_eq_true] at hv
    obtain ⟨hvL, hvTs⟩ := hv
    rw [hCl, hsnapcl, satCNF_append, Bool.and_eq_true] at hvL
    obtain ⟨hvK, hvBlocks⟩ := hvL
    have hvTs2 : evalClause v (tl.map Literal.Pos) = true := by
      rw [← h1]
      simpa [satCNF] using hvTs
    simp only [evalClause, List.any_eq_true] at hvTs2
    obtain ⟨lit, hlitmem, hlitval⟩ := hvTs2
    obtain ⟨t, htmem, hteq⟩ := List.mem_map.mp hlitmem
    obtain ⟨ct, hpair⟩ := mem_zip_left htmem hLen
    have hvt : v t = true := by
      rw [← hteq] at hlitval
      exact hlitval
    have hctFalse := linkBlocks_sound _ v tl (c1 :: c2 :: cs)
      hvBlocks (t, ct) hpair hvt
    have hctmem : ct ∈ c1 :: c2 :: cs := (zip_proj hpair).2
    refine ⟨v, hvK, ?_⟩
    cases hall : satCNF v (transFormula
        (askAug K.snapWith (c1 :: c2 :: cs)).map (c1 :: c2 :: cs)) with
    | false => rfl
    | true =>
        exfalso
        rw [haugmap] at hall
        simp only [satCNF, transFormula, List.all_eq_true] at hall
        have := hall (transClause
            (askLoop K.snapWith (c1 :: c2 :: cs)).2.map ct)
          (List.mem_map_of_mem _ hctmem)
        rw [hctFalse] at this
        exact Bool.false_ne_true this
  · rintro ⟨v, hvK, hvF⟩
    rw [haugmap] at hvF
    set m := (askLoop K.snapWith (c1 :: c2 :: cs)).2.map with hm
    set pairs := tl.zip (transFormula m (c1 :: c2 :: cs)) with hpairs
    set w := override v pairs with hw
    have hfst : pairs.map Prod.fst = tl := by
      rw [hpairs]
      refine List.map_fst_zip tl _ ?_
      rw [hlenTrans, ← hLen]
    have hndfst : (pairs.map Prod.fst).Nodup := by
      rw [hfst]
      exact htlNodup
    have hidNotTl : ∀ (l : Literal T),
        (findId m l.inner).isSome = true → (transLit m l).inner ∉ tl := by
      intro l hpr htlmem
      cases hfind : findId m l.inner with
      | none => rw [hfind] at hpr; simp at hpr
      | some id =>
          have hinner : (transLit m l).inner = id := by
            rw [transLit, Literal.inner_map, hfind]
            rfl
          rw [hinner] at htlmem
          have hnot := (hT id htlmem).2.2
          exact hnot (l.inner, id) (findId_mem hfind) rfl
    have hagree : ∀ c ∈ c1 :: c2 :: cs, ∀ l ∈ c,
        w (transLit m l).inner = v (transLit m l).inner := by
      intro c hc l hl
      rw [hw]
      refine override_not_mem v pairs _ ?_
      rw [hfst]
      exact hidNotTl l (hSome c hc l hl)
    have hvalPairs : ∀ p ∈ tl.zip (c1 :: c2 :: cs),
        w p.1 = !(evalClause v (transClause m p.2)) := by
      intro p hp
      rw [hw]
      refine override_mem v hndfst ?_
      rw [hpairs, transFormula, List.zip_map_right]
      have : (p.1, transClause m p.2) = Prod.map id (transClause m) p := by
        cases p
        rfl
      rw [this]
      exact List.mem_map_of_mem _ hp
    have hKagree : satCNF w K.clauses = satCNF v K.clauses := by
      refine satCNF_congr ?_
      intro c hc l hl
      rw [hw]
      refine override_not_mem v pairs _ ?_
      rw [hfst]
      intro hmem
      have hle : l.inner ≤ K.counter := hwc c hc l hl
      have hgt := (hT l.inner hmem).1
      rw [hsnapcnt] at hgt
      omega
    refine ⟨w, ?_⟩
    rw [haug2, satCNF_append, hCl, hsnapcl, satCNF_append]
    have hWsatK : satCNF w K.clauses = true := by rw [hKagree]; exact hvK
    have hWblocks : satCNF w (linkBlocks m tl (c1 :: c2 :: cs)) = true :=
      linkBlocks_complete m v w tl (c1 :: c2 :: cs) hagree hvalPairs hLen
    have hWts : satCNF w [(askLoop K.snapWith (c1 :: c2 :: cs)).1] = true := by
      simp only [satCNF, List.all_cons, List.all_nil, Bool.and_true]
      rw [h1]
      simp only [satCNF, transFormula, List.all_eq_false] at hvF
      obtain ⟨cF, hcFmem, hcFval⟩ := hvF
      obtain ⟨t, hpairF⟩ := @mem_zip_right Nat (List (Literal Nat)) tl
        (List.map (transClause m) (c1 :: c2 :: cs)) cF hcFmem
        (by rw [List.length_map]; exact hLen)
      have htmem : t ∈ tl := (zip_proj hpairF).1
      have hwtF : w t = true := by
        rw [hw, override_mem v hndfst (by rw [hpairs]; exact hpairF)]
        cases hcq : evalClause v cF with
        | false => rfl
        | true => exact absurd hcq hcFval
      simp only [evalClause, List.any_eq_true]
      exact ⟨Literal.Pos t, List.mem_map_of_mem _ htmem, hwtF⟩
    rw [hWsatK, hWblocks, hWts]
    rfl

/-- Refutation equisatisfiability, single-clause branch: adding the
unit clauses `[¬ℓ]` for the literals of the query clause preserves
exactly the assignments that satisfy the KB and falsify the translated
clause. -/
theorem askAug_single_equisat [DecidableEq T] (K : EncoderSAT T)
    (c : List (Literal T)) :
    (∃ v, satCNF v (askAug K.snapWith [c]).clauses = true) ↔
    (∃ v, satCNF v K.clauses = true ∧
      satCNF v (transFormula (askAug K.snapWith [c]).map [c]) = false) := by
  obtain ⟨fExt, fSome, fCl, fSnap⟩ := foldl_add_not_spec c K.snapWith
  have haug : askAug K.snapWith [c] =
      c.foldl (fun acc l => acc.add [l.not]) K.snapWith := rfl
  rw [haug]
  have hsnapcl : K.snapWith.clauses = K.clauses := rfl
  have hpoint : ∀ v : Nat → Bool,
      (satCNF v (c.foldl (fun acc l => acc.add [l.not]) K.snapWith).clauses
        = true) ↔
      (satCNF v K.clauses = true ∧
        satCNF v (transFormula
          (c.foldl (fun acc l => acc.add [l.not]) K.snapWith).map [c])
          = false) := by
    intro v
    rw [fCl, hsnapcl, satCNF_append, Bool.and_eq_true]
    have hTF : satCNF v (transFormula
        (c.foldl (fun acc l => acc.add [l.not]) K.snapWith).map [c]) =
        evalClause v (transClause
          (c.foldl (fun acc l => acc.add [l.not]) K.snapWith).map c) := by
      simp [satCNF, transFormula]
    have hUnits : satCNF v (c.map (fun l =>
        [transLit (c.foldl (fun acc l => acc.add [l.not]) K.snapWith).map
          l.not])) = true ↔
        evalClause v (transClause
          (c.foldl (fun acc l => acc.add [l.not]) K.snapWith).map c)
          = false := by
      rw [satCNF]
      simp only [List.all_eq_true]
      constructor
      · intro h
        simp only [evalClause, transClause, List.any_eq_false]
        intro x hx
        obtain ⟨l, hl, hxl⟩ := List.mem_map.mp hx
        have h2 := h _ (List.mem_map_of_mem
          (fun l => [transLit (c.foldl (fun acc l => acc.add [l.not])
            K.snapWith).map l.not]) hl)
        simp only [evalClause, List.any_cons, List.any_nil,
          Bool.or_false] at h2
        rw [transLit_not, evalLit_not] at h2
        rw [← hxl]
        intro hEq
        rw [hEq] at h2
        simp at h2
      · intro h x hx
        obtain ⟨l, hl, hxl⟩ := List.mem_map.mp hx
        rw [← hxl]
        simp only [evalClause, List.any_cons, List.any_nil, Bool.or_false]
        rw [transLit_not, evalLit_not]
        simp only [evalClause, transClause, List.any_eq_false] at h
        have h3 := h _ (List.mem_map_of_mem
          (transLit (c.foldl (fun acc l => acc.add [l.not])
            K.snapWith).map) hl)
        cases hb : evalLit v (transLit
            (c.foldl (fun acc l => acc.add [l.not]) K.snapWith).map l)
        · rfl
        · exact absurd hb h3
    rw [hTF]
    constructor
    · rintro ⟨hK, hU⟩
      exact ⟨hK, hUnits.mp hU⟩
    · rintro ⟨hK, hU⟩
      exact ⟨hK, hUnits.mpr hU⟩
  constructor
  · rintro ⟨v, hv⟩
    exact ⟨v, (hpoint v).mp hv⟩
  · rintro ⟨v, hv⟩
    exact ⟨v, (hpoint v).mpr hv⟩

/-- C2: for every well-formed encoder state `K` (clause and table ids
allocated, no pending snapshot) and every non-empty formula `φ`,
assuming the SAT oracle decides CNF satisfiability exactly, `ask(φ)`
returns the state unchanged and answers `true` exactly when every
truth assignment satisfying all clauses of `K` satisfies the
translation of `φ` under the (internally extended) name table — the
Tseytin augmentation `KB ∧ ¬φ` built by `ask` being equisatisfiable
with that semantic conjunction. -/
theorem ask_decides_entailment [DecidableEq T] (oracle : Oracle)
    (hOracle : ∀ n cs, oracle n cs = true ↔ ∃ v, satCNF v cs = true)
    (K : EncoderSAT T) (hwm : WFmap K) (hwc : WFclauses K)
    (hsnap : K.snapshot = none)
    (f : List (List (Literal T))) (hne : f ≠ []) :
    ∃ b, ask oracle K f = some (b, K) ∧
      (b = true ↔ ∀ v, satCNF v K.clauses = true →
        satCNF v (transFormula (askAug K.snapWith f).map f) = true) := by
  have heq := ask_eq oracle K f hsnap
  cases f with
  | nil => exact absurd rfl hne
  | cons c cs =>
      refine ⟨!(oracle (askAug K.snapWith (c :: cs)).counter
        (askAug K.snapWith (c :: cs)).clauses), heq, ?_⟩
      have hALT : (∃ v, satCNF v (askAug K.snapWith (c :: cs)).clauses
            = true) ↔
          (∃ v, satCNF v K.clauses = true ∧
            satCNF v (transFormula (askAug K.snapWith (c :: cs)).map
              (c :: cs)) = false) := by
        cases cs with
        | nil => exact askAug_single_equisat K c
        | cons c2 cs2 => exact askAug_multi_equisat K hwm hwc c c2 cs2
      constructor
      · intro hb v hvK
        have hofalse : oracle (askAug K.snapWith (c :: cs)).counter
            (askAug K.snapWith (c :: cs)).clauses = false := by
          cases ho : oracle (askAug K.snapWith (c :: cs)).counter
              (askAug K.snapWith (c :: cs)).clauses
          · rfl
          · rw [ho] at hb
            simp at hb
        cases htr : satCNF v (transFormula
            (askAug K.snapWith (c :: cs)).map (c :: cs)) with
        | true => rfl
        | false =>
            exfalso
            have hex := hALT.mpr ⟨v, hvK, htr⟩
            rw [(hOracle _ _).mpr hex] at hofalse
            simp at hofalse
      · intro hAll
        cases ho : oracle (askAug K.snapWith (c :: cs)).counter
            (askAug K.snapWith (c :: cs)).clauses with
        | false => rfl
        | true =>
            exfalso
            obtain ⟨v, hvK, hvF⟩ := hALT.mp ((hOracle _ _).mp ho)
            rw [hAll v hvK] at hvF
            simp at hvF

theorem ask_decides_entailment_witness :
    (WFmap (EncoderSAT.new : EncoderSAT String) ∧
     WFclauses (EncoderSAT.new : EncoderSAT String) ∧
     (EncoderSAT.new : EncoderSAT String).snapshot = none ∧
     ([[Literal.Pos "A"], [Literal.Pos "A"]] : List (List (Literal String)))
       ≠ []) ∧
    ∃ b, ask bruteOracle (EncoderSAT.new : EncoderSAT String)
        [[Literal.Pos "A"], [Literal.Pos "A"]] = some (b, EncoderSAT.new) ∧
      (b = true ↔ ∀ v,
        satCNF v (EncoderSAT.new : EncoderSAT String).clauses = true →
        satCNF v (transFormula
          (askAug (EncoderSAT.new : EncoderSAT String).snapWith
            [[Literal.Pos "A"], [Literal.Pos "A"]]).map
          [[Literal.Pos "A"], [Literal.Pos "A"]]) = true) :=
  ⟨⟨fun p hp => absurd hp (List.not_mem_nil p),
    fun c hc => absurd hc (List.not_mem_nil c), rfl, by simp⟩,
   ask_decides_entailment bruteOracle (fun _ cs => bruteSat_exact cs)
     EncoderSAT.new (fun p hp => absurd hp (List.not_mem_nil p))
     (fun c hc => absurd hc (List.not_mem_nil c)) rfl
     [[Literal.Pos "A"], [Literal.Pos "A"]] (by simp)⟩

/-! ### C4: the data-model invariant on reachable states -/

/-- The full inductive invariant: every clause id and every table id
lies in `[1, counter]`, the table has distinct keys and distinct ids,
and no snapshot is pending between operations. -/
def EncInv (e : EncoderSAT T) : Prop :=
  (∀ c ∈ e.clauses, ∀ l ∈ c, 1 ≤ l.inner ∧ l.inner ≤ e.counter) ∧
  (∀ p ∈ e.map, 1 ≤ p.2 ∧ p.2 ≤ e.counter) ∧
  (e.map.map Prod.fst).Nodup ∧
  (e.map.map Prod.snd).Nodup ∧
  e.snapshot = none

theorem encInv_new : EncInv (EncoderSAT.new : EncoderSAT T) :=
  ⟨by simp [EncoderSAT.new], by simp [EncoderSAT.new],
   by simp [EncoderSAT.new], by simp [EncoderSAT.new], rfl⟩

theorem encInv_register_literal [DecidableEq T] {e : EncoderSAT T}
    (h : EncInv e) (l : Literal T) : EncInv (e.register_literal l).2 := by
  obtain ⟨hcl, hmap, hkeys, hids, hsn⟩ := h
  cases hf : findId e.map l.inner with
  | some id =>
      simp only [EncoderSAT.register_literal, hf]
      exact ⟨hcl, hmap, hkeys, hids, hsn⟩
  | none =>
      simp only [EncoderSAT.register_literal, hf]
      refine ⟨?_, ?_, ?_, ?_, ?_⟩
      · intro c hc x hx
        obtain ⟨h1, h2⟩ := hcl c hc x hx
        exact ⟨h1, le_trans h2 (Nat.le_succ e.counter)⟩
      · intro p hp
        rcases List.mem_append.mp hp with hp | hp
        · obtain ⟨h1, h2⟩ := hmap p hp
          exact ⟨h1, le_trans h2 (Nat.le_succ e.counter)⟩
        · have : p = (l.inner, e.counter + 1) := by simpa using hp
          subst this
          exact ⟨Nat.succ_le_succ (Nat.zero_le _), le_refl _⟩
      · rw [List.map_append, List.nodup_append]
        refine ⟨hkeys, by simp, ?_⟩
        intro a ha
        simp only [List.map_cons, List.map_nil, List.mem_singleton]
        intro hal
        subst hal
        obtain ⟨p, hp, hpa⟩ := List.mem_map.mp ha
        exact absurd hpa (findId_eq_none_iff.mp hf p hp)
      · rw [List.map_append, List.nodup_append]
        refine ⟨hids, by simp, ?_⟩
        intro a ha
        simp only [List.map_cons, List.map_nil, List.mem_singleton]
        intro hal
        subst hal
        obtain ⟨p, hp, hpa⟩ := List.mem_map.mp ha
        have := (hmap p hp).2
        omega
      · rw [hsn]
        rfl

theorem encInv_register_clause [DecidableEq T] (c : List (Literal T)) :
    ∀ {e : EncoderSAT T}, EncInv e → EncInv (e.register_clause c).2 := by
  induction c with
  | nil => intro e h; exact h
  | cons l ls ih =>
      intro e h
      rw [EncoderSAT.register_clause]
      exact ih (encInv_register_literal h l)

theorem encInv_add [DecidableEq T] {e : EncoderSAT T} (h : EncInv e)
    (c : List (Literal T)) : EncInv (e.add c) := by
  obtain ⟨rExt, rSome, rTr, rCl, rSnap⟩ := register_clause_spec c e
  obtain ⟨hcl, hmap, hkeys, hids, hsn⟩ := encInv_register_clause c h
  have hmapA : (e.add c).map = (e.register_clause c).2.map := rfl
  have hcntA : (e.add c).counter = (e.register_clause c).2.counter := rfl
  have hclA : (e.add c).clauses =
      (e.register_clause c).2.clauses ++ [(e.register_clause c).1] := rfl
  have hsnA : (e.add c).snapshot = (e.register_clause c).2.snapshot := rfl
  refine ⟨?_, ?_, ?_, ?_, ?_⟩
  · intro d hd x hx
    rw [hclA] at hd
    rw [hcntA]
    rcases List.mem_append.mp hd with hd | hd
    · exact hcl d hd x hx
    · have hdc : d = (e.register_clause c).1 := by simpa using hd
      subst hdc
      rw [rTr] at hx
      obtain ⟨l, hl, hxl⟩ := List.mem_map.mp hx
      cases hfind : findId (e.register_clause c).2.map l.inner with
      | none =>
          have := rSome l hl
          rw [hfind] at this
          simp at this
      | some id =>
          have hxi : x.inner = id := by
            rw [← hxl, transLit, Literal.inner_map, hfind]
            rfl
          rw [hxi]
          exact hmap (l.inner, id) (findId_mem hfind)
  · intro p hp
    rw [hmapA] at hp
    rw [hcntA]
    exact hmap p hp
  · rw [hmapA]
    exact hkeys
  · rw [hmapA]
    exact hids
  · rw [hsnA]
    exact hsn

theorem encInv_tell [DecidableEq T] (f : List (List (Literal T))) :
    ∀ {e : EncoderSAT T}, EncInv e → EncInv (tell e f) := by
  induction f with
  | nil => intro e h; exact h
  | cons c cs ih => intro e h; exact ih (encInv_add h c)

theorem encInv_foldl_add [DecidableEq T] (cs : List (List (Literal T))) :
    ∀ {e : EncoderSAT T}, EncInv e →
    EncInv (cs.foldl (fun kb c => kb.add c) e) := by
  induction cs with
  | nil => intro e h; exact h
  | cons c cs ih => intro e h; exact ih (encInv_add h c)

theorem encInv_init_kb (size : Nat) : EncInv (init_kb size) :=
  encInv_foldl_add (theoryClauses size) encInv_new

/-- The states reachable from the world-theory builder by `tell`,
`ask` (with an arbitrary oracle) and `consistency` (which performs no
state mutation at all: it only reads the current encoding). -/
inductive Reach : EncoderSAT Var → Prop where
  | init (size : Nat) : Reach (init_kb size)
  | tellStep {e : EncoderSAT Var} (f : Formula) : Reach e → Reach (tell e f)
  | askStep {e e' : EncoderSAT Var} (oracle : Oracle) (f : Formula)
      (b : Bool) : Reach e → ask oracle e f = some (b, e') → Reach e'

theorem reach_encInv {e : EncoderSAT Var} (h : Reach e) : EncInv e := by
  induction h with
  | init size => exact encInv_init_kb size
  | tellStep f _ ih => exact encInv_tell f ih
  | askStep oracle f b hre hask ih =>
      rename_i e1 e2
      have heq := ask_eq oracle e1 f ih.2.2.2.2
      rw [heq] at hask
      have he : e1 = e2 := congrArg Prod.snd (Option.some.inj hask)
      rw [← he]
      exact ih

theorem snd_nodup_inj {A : Type} :
    ∀ {m : List (A × Nat)}, (m.map Prod.snd).Nodup →
    ∀ p ∈ m, ∀ q ∈ m, p.2 = q.2 → p = q := by
  intro m
  induction m with
  | nil => intro _ p hp; simp at hp
  | cons r m ih =>
      intro hnd p hp q hq hpq
      simp only [List.map_cons, List.nodup_cons] at hnd
      rcases List.mem_cons.mp hp with hp | hp <;>
        rcases List.mem_cons.mp hq with hq | hq
      · rw [hp, hq]
      · exfalso
        refine hnd.1 ?_
        rw [← hp, hpq]
        exact List.mem_map_of_mem Prod.snd hq
      · exfalso
        refine hnd.1 ?_
        rw [← hq, ← hpq]
        exact List.mem_map_of_mem Prod.snd hp
      · exact ih hnd.2 p hp q hq hpq

/-- C4: in every encoder state reachable from the world-theory builder
by `tell`, `ask` and `consistency` calls, every id occurring in any
stored clause lies between `1` and `counter` (id `0` is never used),
every id in the name table is at most `counter`, and the name-to-id
table is injective.  `ask` restores the state exactly (snapshot, raw
Tseytin allocations and rewind included), so the invariant survives
every call. -/
theorem reachable_invariant (e : EncoderSAT Var) (h : Reach e) :
    (∀ c ∈ e.clauses, ∀ l ∈ c, 1 ≤ l.inner ∧ l.inner ≤ e.counter) ∧
    (∀ p ∈ e.map, 1 ≤ p.2 ∧ p.2 ≤ e.counter) ∧
    (∀ p ∈ e.map, ∀ q ∈ e.map, p.2 = q.2 → p.1 = q.1) ∧
    e.snapshot = none := by
  obtain ⟨hcl, hmap, _, hids, hsn⟩ := reach_encInv h
  exact ⟨hcl, hmap, fun p hp q hq hpq =>
    congrArg Prod.fst (snd_nodup_inj hids p hp q hq hpq), hsn⟩

/-! ### C5: the stench physics of the world theory -/

/-- Does this variable speak about a stench? -/
def isStench : Var → Bool
  | Var.Stench _ => true
  | _ => false

/-- Does a clause contain a `Stench` literal (of either polarity)? -/
def containsStench (cl : List (Literal Var)) : Bool :=
  cl.any (fun l => isStench l.inner)

/-- Modelled from the spec: the in-bounds 4-connected neighbours of a
cell (spec §4.4, "Adjacency is 4-connected within bounds"), listed in
the builder's direction order North, Sud, East, Ovest. -/
def adjCells (size : Nat) (pos : Position) : List Position :=
  (if 0 < pos.y then [⟨pos.x, pos.y - 1⟩] else [])
  ++ (if pos.y + 1 < size then [⟨pos.x, pos.y + 1⟩] else [])
  ++ (if pos.x + 1 < size then [⟨pos.x + 1, pos.y⟩] else [])
  ++ (if 0 < pos.x then [⟨pos.x - 1, pos.y⟩] else [])

/-- Modelled from the spec: the stench physics clauses — for every
cell `c`, one clause `¬Wumpus(c) ∨ Stench(c')` per in-bounds neighbour
`c'`, then the clause `¬Stench(c) ∨ ⋁_(c' adj c) Wumpus(c')`. -/
def specStenchClauses (size : Nat) : List (List (Literal Var)) :=
  ((List.range size).map (fun i =>
    ((List.range size).map (fun j =>
      (adjCells size ⟨i, j⟩).map (fun nb =>
        [Literal.Neg (Var.Wumpus ⟨i, j⟩), Literal.Pos (Var.Stench nb)])
      ++ [Literal.Neg (Var.Stench ⟨i, j⟩) ::
          (adjCells size ⟨i, j⟩).map (fun nb =>
            Literal.Pos (Var.Wumpus nb))])).flatten)).flatten

theorem possible_move_sud (pos : Position) (size : Nat) :
    pos.possible_move Direction.Sud size = decide (pos.y + 1 < size) := by
  rw [Position.possible_move]
  exact decide_eq_decide.mpr (by omega)

theorem possible_move_east (pos : Position) (size : Nat) :
    pos.possible_move Direction.East size = decide (pos.x + 1 < size) := by
  rw [Position.possible_move]
  exact decide_eq_decide.mpr (by omega)

/-- Folding any per-neighbour emission over the builder's direction
loop equals mapping it over the spec's adjacency list. -/
theorem dir_fold_eq_adj {A : Type} (size : Nat) (pos : Position)
    (g : Position → List A) :
    (dirOrder.map (fun dir =>
      if pos.possible_move dir size then g (pos.move_clone dir)
      else [])).flatten
    = ((adjCells size pos).map g).flatten := by
  simp only [dirOrder, List.map_cons, List.map_nil]
  rw [possible_move_sud, possible_move_east]
  by_cases h1 : 0 < pos.y <;> by_cases h2 : pos.y + 1 < size <;>
    by_cases h3 : pos.x + 1 < size <;> by_cases h4 : 0 < pos.x <;>
    simp [adjCells, Position.possible_move, Position.move_clone,
      h1, h2, h3, h4]

theorem contains_stench_wumpusALO (size : Nat) :
    containsStench (wumpusALO size) = false := by
  rw [containsStench]
  simp only [List.any_eq_false]
  intro l hl
  rw [wumpusALO] at hl
  simp only [List.mem_flatten, List.mem_map] at hl
  obtain ⟨sub, ⟨i, _, hsub⟩, hlsub⟩ := hl
  rw [← hsub] at hlsub
  obtain ⟨j, _, hlj⟩ := List.mem_map.mp hlsub
  rw [← hlj]
  simp [Literal.inner, isStench]

theorem contains_stench_goldALO (size : Nat) :
    containsStench (goldALO size) = false := by
  rw [containsStench]
  simp only [List.any_eq_false]
  intro l hl
  rw [goldALO] at hl
  simp only [List.mem_flatten, List.mem_map] at hl
  obtain ⟨sub, ⟨i, _, hsub⟩, hlsub⟩ := hl
  rw [← hsub] at hlsub
  obtain ⟨j, _, hlj⟩ := List.mem_map.mp hlsub
  rw [← hlj]
  simp [Literal.inner, isStench]

theorem pairwise_no_stench (size : Nat) :
    ∀ cl ∈ pairwiseClauses size, containsStench cl = false := by
  intro cl hcl
  rw [pairwiseClauses] at hcl
  simp only [List.mem_flatten, List.mem_map] at hcl
  obtain ⟨s1, ⟨i, _, h1⟩, hcl1⟩ := hcl
  rw [← h1] at hcl1
  simp only [List.mem_flatten, List.mem_map] at hcl1
  obtain ⟨s2, ⟨j, _, h2⟩, hcl2⟩ := hcl1
  rw [← h2] at hcl2
  simp only [List.mem_flatten, List.mem_map] at hcl2
  obtain ⟨s3, ⟨x, _, h3⟩, hcl3⟩ := hcl2
  rw [← h3] at hcl3
  simp only [List.mem_flatten, List.mem_map] at hcl3
  obtain ⟨s4, ⟨y, _, h4⟩, hcl4⟩ := hcl3
  rw [← h4] at hcl4
  by_cases hxy : (i, j) ≠ (x, y)
  · rw [if_pos hxy] at hcl4
    simp only [List.mem_cons, List.not_mem_nil, or_false] at hcl4
    rcases hcl4 with h | h
    · rw [h]; rfl
    · rw [h]; rfl
  · rw [if_neg hxy] at hcl4
    simp at hcl4

theorem safety_no_stench (size : Nat) :
    ∀ cl ∈ safetySection size, containsStench cl = false := by
  intro cl hcl
  rw [safetySection] at hcl
  simp only [List.mem_flatten, List.mem_map] at hcl
  obtain ⟨s1, ⟨i, _, h1⟩, hcl1⟩ := hcl
  rw [← h1] at hcl1
  simp only [List.mem_flatten, List.mem_map] at hcl1
  obtain ⟨s2, ⟨j, _, h2⟩, hcl2⟩ := hcl1
  rw [← h2] at hcl2
  rw [safetyCell] at hcl2
  simp only [List.mem_cons, List.not_mem_nil, or_false] at hcl2
  rcases hcl2 with h | h | h
  · rw [h]; rfl
  · rw [h]; rfl
  · rw [h]; rfl

theorem physicsCell_filter (size : Nat) (pos : Position) :
    (physicsCell size pos).filter containsStench =
      (adjCells size pos).map (fun nb =>
        [Literal.Neg (Var.Wumpus pos), Literal.Pos (Var.Stench nb)])
      ++ [Literal.Neg (Var.Stench pos) ::
          (adjCells size pos).map (fun nb => Literal.Pos (Var.Wumpus nb))] := by
  rw [physicsCell, List.filter_append, List.filter_flatten]
  have hdirs : (dirOrder.map (fun dir =>
      if pos.possible_move dir size then
        [[Literal.Neg (Var.Pit pos),
          Literal.Pos (Var.Breeze (pos.move_clone dir))],
         [Literal.Neg (Var.Wumpus pos),
          Literal.Pos (Var.Stench (pos.move_clone dir))]]
      else [])).map (List.filter containsStench) =
      dirOrder.map (fun dir =>
        if pos.possible_move dir size then
          [[Literal.Neg (Var.Wumpus pos),
            Literal.Pos (Var.Stench (pos.move_clone dir))]]
        else []) := by
    rw [List.map_map]
    refine List.map_congr_left ?_
    intro dir _
    by_cases hp : pos.possible_move dir size <;>
      simp [hp, List.filter_cons, containsStench, isStench, Literal.inner]
  rw [hdirs, dir_fold_eq_adj size pos (fun nb =>
    [[Literal.Neg (Var.Wumpus pos), Literal.Pos (Var.Stench nb)]])]
  have hlong : ([Literal.Neg (Var.Breeze pos) ::
      (dirOrder.map (fun dir =>
        if pos.possible_move dir size then
          [Literal.Pos (Var.Pit (pos.move_clone dir))]
        else [])).flatten,
      Literal.Neg (Var.Stench pos) ::
      (dirOrder.map (fun dir =>
        if pos.possible_move dir size then
          [Literal.Pos (Var.Wumpus (pos.move_clone dir))]
        else [])).flatten]).filter containsStench =
      [Literal.Neg (Var.Stench pos) ::
        (dirOrder.map (fun dir =>
          if pos.possible_move dir size then
            [Literal.Pos (Var.Wumpus (pos.move_clone dir))]
          else [])).flatten] := by
    have hbr : containsStench (Literal.Neg (Var.Breeze pos) ::
        (dirOrder.map (fun dir =>
          if pos.possible_move dir size then
            [Literal.Pos (Var.Pit (pos.move_clone dir))]
          else [])).flatten) = false := by
      rw [containsStench]
      simp only [List.any_cons, List.any_eq_false, Bool.or_eq_false_iff]
      refine ⟨rfl, ?_⟩
      intro l hl
      simp only [List.mem_flatten, List.mem_map] at hl
      obtain ⟨sub, ⟨dir, _, hsub⟩, hlsub⟩ := hl
      rw [← hsub] at hlsub
      by_cases hp : pos.possible_move dir size
      · rw [if_pos hp] at hlsub
        have : l = Literal.Pos (Var.Pit (pos.move_clone dir)) := by
          simpa using hlsub
        rw [this]
        simp [Literal.inner, isStench]
      · rw [if_neg hp] at hlsub
        simp at hlsub
    have hst : containsStench (Literal.Neg (Var.Stench pos) ::
        (dirOrder.map (fun dir =>
          if pos.possible_move dir size then
            [Literal.Pos (Var.Wumpus (pos.move_clone dir))]
          else [])).flatten) = true := by
      rw [containsStench]
      simp [isStench, Literal.inner]
    rw [List.filter_cons, List.filter_cons]
    rw [hbr, hst]
    simp
  rw [hlong, dir_fold_eq_adj size pos (fun nb =>
    [Literal.Pos (Var.Wumpus nb)])]
  have hmapflat : ((adjCells size pos).map (fun nb =>
      [Literal.Pos (Var.Wumpus nb)])).flatten =
      (adjCells size pos).map (fun nb => Literal.Pos (Var.Wumpus nb)) := by
    induction adjCells size pos with
    | nil => rfl
    | cons a rest ih => simp [ih]
  have hmapflat2 : ((adjCells size pos).map (fun nb =>
      [[Literal.Neg (Var.Wumpus pos), Literal.Pos (Var.Stench nb)]])).flatten =
      (adjCells size pos).map (fun nb =>
        [Literal.Neg (Var.Wumpus pos), Literal.Pos (Var.Stench nb)]) := by
    induction adjCells size pos with
    | nil => rfl
    | cons a rest ih => simp [ih]
  rw [hmapflat, hmapflat2]

theorem theory_filter_stench (size : Nat) :
    (theoryClauses size).filter containsStench = specStenchClauses size := by
  have hW : ([wumpusALO size]).filter containsStench = [] := by
    refine List.filter_eq_nil_iff.mpr ?_
    intro cl hcl
    have hEq : cl = wumpusALO size := by simpa using hcl
    rw [hEq]
    simp [contains_stench_wumpusALO]
  have hS : ([[Literal.Pos (Var.Safe ⟨0, 0⟩)]]
      : List (List (Literal Var))).filter containsStench = [] := by
    refine List.filter_eq_nil_iff.mpr ?_
    intro cl hcl
    have hEq : cl = [Literal.Pos (Var.Safe ⟨0, 0⟩)] := by simpa using hcl
    rw [hEq]
    simp [containsStench, isStench, Literal.inner]
  have hP : (pairwiseClauses size).filter containsStench = [] := by
    refine List.filter_eq_nil_iff.mpr ?_
    intro cl hcl
    simp [pairwise_no_stench size cl hcl]
  have hG : ([goldALO size]).filter containsStench = [] := by
    refine List.filter_eq_nil_iff.mpr ?_
    intro cl hcl
    have hEq : cl = goldALO size := by simpa using hcl
    rw [hEq]
    simp [contains_stench_goldALO]
  have hSafe : (safetySection size).filter containsStench = [] := by
    refine List.filter_eq_nil_iff.mpr ?_
    intro cl hcl
    simp [safety_no_stench size cl hcl]
  rw [theoryClauses, specStenchClauses]
  rw [List.filter_append, List.filter_append, List.filter_append,
    List.filter_append, List.filter_append]
  rw [hW, hS, hP, hG, hSafe]
  simp only [List.nil_append, List.append_nil]
  rw [physicsSection, List.filter_flatten, List.map_map]
  refine congrArg List.flatten (List.map_congr_left ?_)
  intro i _
  simp only [Function.comp_apply]
  rw [List.filter_flatten, List.map_map]
  refine congrArg List.flatten (List.map_congr_left ?_)
  intro j _
  simp only [Function.comp_apply]
  exact physicsCell_filter size ⟨i, j⟩

theorem move_clone_mem_adj (size : Nat) (pos : Position) (dir : Direction)
    (h : pos.possible_move dir size = true) :
    pos.move_clone dir ∈ adjCells size pos := by
  cases dir with
  | North =>
      rw [Position.possible_move, decide_eq_true_eq] at h
      simp [adjCells, Position.move_clone, h]
  | Sud =>
      rw [possible_move_sud, decide_eq_true_eq] at h
      simp [adjCells, Position.move_clone, h]
  | East =>
      rw [possible_move_east, decide_eq_true_eq] at h
      simp [adjCells, Position.move_clone, h]
  | Ovest =>
      rw [Position.possible_move, decide_eq_true_eq] at h
      simp [adjCells, Position.move_clone, h]

/-- C5: for every grid size, the stench-mentioning clauses emitted by
the world-theory builder are exactly the spec's stench physics — per
cell one clause `¬Wumpus(c) ∨ Stench(c')` (a Stench, not a Breeze,
literal) for each in-bounds 4-connected neighbour `c'`, plus the
clause `¬Stench(c) ∨ ⋁_(c' adj c) Wumpus(c')`; in particular both
clause families are present for every cell and in-bounds direction. -/
theorem stench_physics (size : Nat) :
    (theoryClauses size).filter containsStench = specStenchClauses size ∧
    (∀ i j : Nat, i < size → j < size → ∀ dir : Direction,
      Position.possible_move ⟨i, j⟩ dir size = true →
      [Literal.Neg (Var.Wumpus ⟨i, j⟩),
       Literal.Pos (Var.Stench (Position.move_clone ⟨i, j⟩ dir))]
        ∈ theoryClauses size) ∧
    (∀ i j : Nat, i < size → j < size →
      (Literal.Neg (Var.Stench ⟨i, j⟩) ::
        (adjCells size ⟨i, j⟩).map (fun nb => Literal.Pos (Var.Wumpus nb)))
        ∈ theoryClauses size) := by
  refine ⟨theory_filter_stench size, ?_, ?_⟩
  · intro i j hi hj dir hdir
    have hmem : [Literal.Neg (Var.Wumpus ⟨i, j⟩),
        Literal.Pos (Var.Stench (Position.move_clone ⟨i, j⟩ dir))]
        ∈ specStenchClauses size := by
      rw [specStenchClauses]
      simp only [List.mem_flatten, List.mem_map]
      refine ⟨_, ⟨i, by simp [List.mem_range, hi], rfl⟩, ?_⟩
      simp only [List.mem_flatten, List.mem_map]
      refine ⟨_, ⟨j, by simp [List.mem_range, hj], rfl⟩, ?_⟩
      refine List.mem_append_left _ ?_
      exact List.mem_map_of_mem _ (move_clone_mem_adj size ⟨i, j⟩ dir hdir)
    rw [← theory_filter_stench size] at hmem
    exact (List.mem_filter.mp hmem).1
  · intro i j hi hj
    have hmem : (Literal.Neg (Var.Stench ⟨i, j⟩) ::
        (adjCells size ⟨i, j⟩).map (fun nb => Literal.Pos (Var.Wumpus nb)))
        ∈ specStenchClauses size := by
      rw [specStenchClauses]
      simp only [List.mem_flatten, List.mem_map]
      refine ⟨_, ⟨i, by simp [List.mem_range, hi], rfl⟩, ?_⟩
      simp only [List.mem_flatten, List.mem_map]
      refine ⟨_, ⟨j, by simp [List.mem_range, hj], rfl⟩, ?_⟩
      refine List.mem_append_right _ ?_
      simp
    rw [← theory_filter_stench size] at hmem
    exact (List.mem_filter.mp hmem).1

theorem stench_physics_witness :
    (theoryClauses 2).filter containsStench = specStenchClauses 2 ∧
    ((1 : Nat) < 2 ∧ (0 : Nat) < 2 ∧
      Position.possible_move ⟨1, 0⟩ Direction.Ovest 2 = true) ∧
    [Literal.Neg (Var.Wumpus ⟨1, 0⟩),
     Literal.Pos (Var.Stench (Position.move_clone ⟨1, 0⟩ Direction.Ovest))]
      ∈ theoryClauses 2 ∧
    (Literal.Neg (Var.Stench ⟨1, 0⟩) ::
      (adjCells 2 ⟨1, 0⟩).map (fun nb => Literal.Pos (Var.Wumpus nb)))
      ∈ theoryClauses 2 :=
  ⟨(stench_physics 2).1,
   ⟨by decide, by decide, by decide⟩,
   (stench_physics 2).2.1 1 0 (by decide) (by decide) Direction.Ovest
     (by decide),
   (stench_physics 2).2.2 1 0 (by decide) (by decide)⟩

theorem reachable_invariant_witness :
    (∀ c ∈ (init_kb 1).clauses, ∀ l ∈ c,
      1 ≤ l.inner ∧ l.inner ≤ (init_kb 1).counter) ∧
    (∀ p ∈ (init_kb 1).map, 1 ≤ p.2 ∧ p.2 ≤ (init_kb 1).counter) ∧
    (∀ p ∈ (init_kb 1).map, ∀ q ∈ (init_kb 1).map, p.2 = q.2 → p.1 = q.1) ∧
    (init_kb 1).snapshot = none :=
  reachable_invariant (init_kb 1) (Reach.init 1)

end Wumpus
